import Mathlib

/-!
Verification of the inter-settlement trade-route engine (`trade_routes.py`)
of the text-rpg repository, against its natural-language specification.

The Python sources are shallowly embedded: Python floats are modelled as
exact rationals (`ℚ`), Python dicts as association lists (insertion order
preserved, as for CPython dicts), tile references as tile values identified
by their grid coordinates (in a well-formed world the grid holds exactly one
tile object per coordinate pair, so object identity coincides with
coordinate identity), and operations that can raise a Python exception
return `Except PyErr`.  Loops whose termination Python does not bound are
given explicit fuel; `none` means the fuel ran out before the loop finished.
-/

namespace TradeSpec

/-- Python exception kinds that the embedded code can raise. -/
inductive PyErr where
  | keyError : PyErr
  | indexError : PyErr
  | typeError : PyErr
  | attributeError : PyErr
  | zeroDivisionError : PyErr
deriving DecidableEq, Repr

/-- Association-list lookup with `String` keys (Python `dict.get(k)`). -/
def alookupS {α : Type} : List (String × α) → String → Option α
  | [], _ => none
  | (k, v) :: r, s => if k = s then some v else alookupS r s

/-- Association-list lookup with `Nat` keys (Python `dict.get(k)`). -/
def alookupN {α : Type} : List (Nat × α) → Nat → Option α
  | [], _ => none
  | (k, v) :: r, s => if k = s then some v else alookupN r s

/-- Python `d[k] = v` on a dict: replace in place if the key exists,
otherwise append at the end (CPython insertion order). -/
def aupsertN {α : Type} : List (Nat × α) → Nat → α → List (Nat × α)
  | [], k, v => [(k, v)]
  | (k', v') :: r, k, v =>
      if k' = k then (k, v) :: r else (k', v') :: aupsertN r k v

/-- The `weather` subsystem dict: only the key read by the trade engine. -/
structure WeatherSys where
  state : Option String
deriving DecidableEq, Repr

/-- The `humidity` subsystem dict. -/
structure HumiditySys where
  current : Option ℚ
deriving DecidableEq, Repr

/-- The `soil` subsystem dict. -/
structure SoilSys where
  fertility : Option ℚ
deriving DecidableEq, Repr

/-- The `eco` subsystem dict. -/
structure EcoSys where
  carnivores : Option ℚ
  herbivores : Option ℚ
deriving DecidableEq, Repr

/-- The `eco_risk` subsystem dict. -/
structure EcoRiskSys where
  value : Option ℚ
deriving DecidableEq, Repr

/-- The `economy` subsystem dict.  `economy.py` always creates it with all
of these keys present, so they are modelled as required fields; the
defaulted `.get` reads in `trade_routes.py` therefore never see a missing
key.  `id` is the settlement identifier (`rng.randint(1, 9999)`, an int). -/
structure EconSys where
  sid : Nat
  population : ℚ
  wealth : ℚ
  supplies : ℚ
  prosperity : ℚ
  production : ℚ
  consumption : ℚ
  price_multiplier : ℚ
  power_projection : ℚ
  sub_commodities : List (String × ℚ)
deriving DecidableEq, Repr

/-- Long-term relationship memory entry (`{'rv': float, 'rs': float}`). -/
structure RelScore where
  rv : ℚ
  rs : ℚ
deriving DecidableEq, Repr

/-- The relationship component that `trade_routes.py` fetches from a
settlement-AI entity: a table of per-counterpart scores together with the
`get_rv` accessor interface that the trade module calls on it. -/
structure RelComp where
  table : List (Nat × RelScore)
deriving DecidableEq, Repr

/-- `get_rv`: `self.table.get(other_id, {"rv": 0.0})["rv"]`. -/
def RelComp.get_rv (r : RelComp) (oid : Nat) : ℚ :=
  ((alookupN r.table oid).getD ⟨0, 0⟩).rv

/-- The personality component: named traits with neutral default. -/
structure Personality where
  traits : List (String × ℚ)
deriving DecidableEq, Repr

/-- `PersonalityComponent.get`: `self.traits.get(trait, 0.5)`. -/
def Personality.get (p : Personality) (trait : String) : ℚ :=
  (alookupS p.traits trait).getD (1/2)

/-- An entity on a tile; only the components read by the trade engine are
modelled.  `entity.get(name)` returns `None` when the component is absent,
hence the `Option` fields. -/
structure Entity where
  eid : Nat
  type : String
  personality : Option Personality
  relationship : Option RelComp
deriving DecidableEq, Repr

/-- A trade link dict `{"partner":…, "value":…, "risk":…, "path":…}`.
The path is kept as the list of coordinates of its tiles (tile objects are
identified by coordinates in a well-formed world), which is also exactly
what the duplicate-suppression key `(partner, tuple(path))` compares. -/
structure LinkPath where
  pos : List (Nat × Nat)
deriving DecidableEq, Repr

/-- A `defaultdict(list)` from settlement id to link list, in insertion
order. -/
structure LinkDict (L : Type) where
  entries : List (Nat × List L)
deriving DecidableEq, Repr

/-- `d[k]` read on a `defaultdict(list)`: returns the list and the dict
after the read (a missing key is created with `[]`). -/
def LinkDict.getCreate {L : Type} (d : LinkDict L) (k : Nat) :
    List L × LinkDict L :=
  match alookupN d.entries k with
  | some l => (l, d)
  | none => ([], ⟨d.entries ++ [(k, [])]⟩)

/-- Plain (non-creating) read of a key, `[]` when absent. -/
def LinkDict.get {L : Type} (d : LinkDict L) (k : Nat) : List L :=
  (alookupN d.entries k).getD []

/-- `d[k].append(x)` on a `defaultdict(list)`. -/
def LinkDict.append {L : Type} (d : LinkDict L) (k : Nat) (x : L) :
    LinkDict L :=
  let (cur, d') := d.getCreate k
  ⟨aupsertN d'.entries k (cur ++ [x])⟩

/-- `d[k].extend(xs)` on a `defaultdict(list)`. -/
def LinkDict.extend {L : Type} (d : LinkDict L) (k : Nat) (xs : List L) :
    LinkDict L :=
  let (cur, d') := d.getCreate k
  ⟨aupsertN d'.entries k (cur ++ xs)⟩

/-- The `meta` subsystem dict on tile `(0,0)`: the well-known world-level
storage slot.  Only the `trade_links` key is read or written by the trade
engine; `none` models the key being absent from the dict. -/
structure MetaSys (L : Type) where
  trade_links : Option (LinkDict L)
deriving DecidableEq, Repr

/-- One world tile (`TileState`), restricted to the attributes the trade
engine reads.  Subsystem dicts are `Option`s: `get_system(name)` yields
`None` when the system is not attached. -/
structure Tile where
  x : Nat
  y : Nat
  terrain : String
  biome : Option String
  movement_cost : ℚ
  tags : List String
  entities : List Entity
  economy : Option EconSys
  weather : Option WeatherSys
  humidity : Option HumiditySys
  soil : Option SoilSys
  eco : Option EcoSys
  eco_risk : Option EcoRiskSys
deriving DecidableEq, Repr

/-- A link whose path is a list of tiles (as handed around by the Python
code); `keyPath` projects it to the coordinate list used for identity. -/
structure Link where
  partner : Nat
  value : ℚ
  risk : ℚ
  path : List Tile
deriving DecidableEq, Repr

/-- The identity of a path as compared by `(partner, tuple(path))`. -/
def keyPath (p : List Tile) : LinkPath :=
  ⟨p.map (fun t => (t.x, t.y))⟩

/-- The duplicate-suppression key of a link. -/
def linkKey (l : Link) : Nat × LinkPath :=
  (l.partner, keyPath l.path)

/-- The world as the trade engine sees it: the tile grid (rows of tiles)
together with the contents of the global spatial index's
`system_index["economy"]` entry, i.e. what
`world_index_store.world_index.with_system("economy")` returns.  The index
is external state maintained by the collaborating `WorldIndex`; it is a
parameter here. -/
structure World where
  grid : List (List Tile)
  econIndex : List Tile
  meta00 : Option (MetaSys Link)
deriving DecidableEq, Repr

/-- `get_settlement_ai(tile)`: first entity with type `"settlement_ai"`. -/
def get_settlement_ai : List Entity → Option Entity
  | [] => none
  | e :: r => if e.type = "settlement_ai" then some e else get_settlement_ai r

/-! ### 1. Settlement profile extraction -/

/-- One settlement profile as built by `CollectSettlementProfiles`. -/
structure Profile where
  tile : Tile
  exports : List (String × ℚ)
  imports : List (String × ℚ)
  population : ℚ
  wealth : ℚ
  supplies : ℚ
  production : ℚ
  consumption : ℚ
  prosperity : ℚ
deriving DecidableEq, Repr

/-- `exports = {k: v for k, v in subs.items() if v > 1.0}`. -/
def exportsOf : List (String × ℚ) → List (String × ℚ)
  | [] => []
  | (k, v) :: r => if 1 < v then (k, v) :: exportsOf r else exportsOf r

/-- The naive per-capita demand table of `CollectSettlementProfiles`. -/
def baseDemand (pop : ℚ) : List (String × ℚ) :=
  [("grain", pop * (2/100)), ("meat", pop * (15/1000)),
   ("fish", pop * (1/100)), ("timber", pop * (5/1000)),
   ("stone", pop * (3/1000)), ("iron", pop * (2/1000))]

/-- The import map: commodities whose stock is below half the modelled
demand, recorded at the shortfall `demand - have`. -/
def importsOf (subs : List (String × ℚ)) (pop : ℚ) : List (String × ℚ) :=
  (baseDemand pop).foldr
    (fun rd acc =>
      let hv := (alookupS subs rd.1).getD 0
      if hv < rd.2 * (1/2) then (rd.1, rd.2 - hv) :: acc else acc) []

/-- The profile built from one economy-carrying tile. -/
def profileOfEcon (t : Tile) (e : EconSys) : Profile :=
  { tile := t
    exports := exportsOf e.sub_commodities
    imports := importsOf e.sub_commodities e.population
    population := e.population
    wealth := e.wealth
    supplies := e.supplies
    production := e.production
    consumption := e.consumption
    prosperity := e.prosperity }

/-- Fold of `CollectSettlementProfiles` over the tiles the spatial index
reports for the `economy` system.  A tile without an economy dict makes
Python subscript `None` (a `TypeError`). -/
def collectAux : List Tile → List (Nat × Profile) →
    Except PyErr (List (Nat × Profile))
  | [], acc => .ok acc
  | t :: r, acc =>
      match t.economy with
      | none => .error .typeError
      | some e => collectAux r (aupsertN acc e.sid (profileOfEcon t e))

/-- `CollectSettlementProfiles(world)`. -/
def collectSettlementProfiles (w : World) :
    Except PyErr (List (Nat × Profile)) :=
  collectAux w.econIndex []

/-! ### 3. Compute trade value -/

/-- Sum of export magnitudes over commodities the other side imports:
`sum(v for k, v in exp.items() if k in imp)`. -/
def sumMatched : List (String × ℚ) → List (String × ℚ) → ℚ
  | [], _ => 0
  | (k, v) :: r, imp =>
      (if (alookupS imp k).isSome then v else 0) + sumMatched r imp

/-- `ComputeTradeValue(profileA, profileB)`. -/
def computeTradeValue (pA pB : Profile) : ℚ :=
  let valA := sumMatched pA.exports pB.imports
  let valB := sumMatched pB.exports pA.imports
  let base := valA + valB
  if base ≤ 0 then 0
  else
    let wealth_mod := (pA.wealth + pB.wealth) / 200
    let supply_mod := (pA.supplies + pB.supplies) / 200
    base * (1/2 + wealth_mod + supply_mod)

/-! ### 4. Path cost -/

/-- `tile_cost(tile)`: `tile.movement_cost or 1.5` (a zero float is falsy,
so a cost of `0` falls back to `1.5`). -/
def tile_cost (t : Tile) : ℚ :=
  if t.movement_cost = 0 then 3/2 else t.movement_cost

/-- `path_cost(path) = sum(tile_cost(t) for t in path)` — the sum runs over
every tile of the path, the source tile included. -/
def path_cost : List Tile → ℚ
  | [] => 0
  | t :: r => tile_cost t + path_cost r

/-! ### 5. Route risk evaluation -/

/-- The additive risk contribution of a single path tile in
`EvaluateRouteRisk` (biome, weather, humidity, soil, predators, eco-risk
signal, event and bandit tags). -/
def tileRisk (t : Tile) : ℚ :=
  let biome := t.biome.getD ""
  let wstate := match t.weather with
    | none => ""
    | some w => w.state.getD ""
  let hum := match t.humidity with
    | none => (1/2 : ℚ)
    | some h => h.current.getD (1/2)
  let fert := match t.soil with
    | none => (1/2 : ℚ)
    | some s => s.fertility.getD (1/2)
  let carn := match t.eco with
    | none => (0 : ℚ)
    | some e => e.carnivores.getD 0
  let herb := match t.eco with
    | none => (1 : ℚ)
    | some e => e.herbivores.getD 1
  let ratio := carn / max herb 1
  let ecoR := match t.eco_risk with
    | none => (0 : ℚ)
    | some e => e.value.getD 0
  (if biome = "forest" ∨ biome = "rainforest" then (1/2 : ℚ) else 0)
  + (if biome = "desert" ∨ biome = "semi_arid" ∨ biome = "scrubland" ∨
        biome = "cold_steppe" then (2/5 : ℚ) else 0)
  + (if biome = "wetland" ∨ biome = "mangrove" then (3/5 : ℚ) else 0)
  + (if biome = "savanna" then (1/5 : ℚ) else 0)
  + (if biome = "mountain" ∨ biome = "alpine" ∨ biome = "montane_forest"
      then (7/10 : ℚ) else 0)
  + (if wstate = "storm" then (7/10 : ℚ)
     else if wstate = "rain" then (1/5 : ℚ)
     else if wstate = "drought" then (3/10 : ℚ) else 0)
  + (if hum < 1/5 then (3/10 : ℚ) else 0)
  + (if 17/20 < hum then (2/5 : ℚ) else 0)
  + (if fert < 1/4 then (3/10 : ℚ)
     else if 7/10 < fert then (-(1/5) : ℚ) else 0)
  + (if 1 < ratio then ratio * (3/5) else 0)
  + ecoR
  + (if "forest_bloom" ∈ t.tags then (-(2/5) : ℚ) else 0)
  + (if "predator_surge" ∈ t.tags then (6/5 : ℚ) else 0)
  + (if "ecological_collapse" ∈ t.tags then (3/2 : ℚ) else 0)
  + (if "bandit_settlement" ∈ t.tags then (1 : ℚ) else 0)

/-! ### 4b. The A* route planner (`FindRoute`)

Heap priorities are the real numbers `g + √d` (`d` the squared Euclidean
distance to the goal).  A priority is represented exactly by the pair
`(g, d) : ℚ × ℚ` and comparisons are decided by exact rational arithmetic
(the standard idealisation of float comparisons). -/

/-- Decides `a + b·√u ≤ 0` for `u ≥ 0`, by case analysis and squaring. -/
def sqrtLinNonpos (a b u : ℚ) : Bool :=
  if 0 ≤ b then decide (a ≤ 0) && decide (b^2 * u ≤ a^2)
  else decide (a ≤ 0) || decide (a^2 ≤ b^2 * u)

/-- Decides `a + b·√u + c·√v ≤ 0` for `u, v ≥ 0`, reducing to the
one-square-root case. -/
def sqrt2LinNonpos (a b u c v : ℚ) : Bool :=
  if 0 ≤ c then
    sqrtLinNonpos a b u &&
      sqrtLinNonpos (c^2 * v - a^2 - b^2 * u) (-(2 * a * b)) u
  else
    sqrtLinNonpos a b u ||
      sqrtLinNonpos (a^2 + b^2 * u - c^2 * v) (2 * a * b) u

/-- A heap priority `g + √d`, as the pair `(g, d)`. -/
abbrev Prio := ℚ × ℚ

/-- Decides `p ≤ q` as real numbers: `p.1 + √p.2 ≤ q.1 + √q.2`. -/
def prioLe (p q : Prio) : Bool :=
  sqrt2LinNonpos (p.1 - q.1) 1 p.2 (-1) q.2

/-- Strict priority order (floats are totally ordered: `p < q ↔ ¬ q ≤ p`). -/
def prioLt (p q : Prio) : Bool :=
  ! prioLe q p

/-- Priority equality as real numbers. -/
def prioEq (p q : Prio) : Bool :=
  prioLe p q && prioLe q p

/-- A heap entry `(priority, counter, tile)`.  Counters are unique, so the
lexicographic tuple comparison never reaches the tile. -/
abbrev HeapEntry := Prio × Nat × Tile

/-- Lexicographic strict order on `(priority, counter)`. -/
def entryLt (e f : HeapEntry) : Bool :=
  prioLt e.1 f.1 || (prioEq e.1 f.1 && decide (e.2.1 < f.2.1))

/-- Select the least entry of a non-empty collection, returning it together
with the remaining entries. -/
def selMin : HeapEntry → List HeapEntry → HeapEntry × List HeapEntry
  | best, [] => (best, [])
  | best, e :: r =>
      if entryLt e best then
        let (m, rest) := selMin e r
        (m, best :: rest)
      else
        let (m, rest) := selMin best r
        (m, e :: rest)

/-- `heapq.heappop`: remove and return the smallest entry (`none` on an
empty heap — the loop guard prevents Python from ever popping one). -/
def heapPop : List HeapEntry → Option (HeapEntry × List HeapEntry)
  | [] => none
  | e :: r => some (selMin e r)

/-- Index `world[ny][nx]`; out of range raises `IndexError`. -/
def gridAt (grid : List (List Tile)) (ny nx : Nat) : Except PyErr Tile :=
  match grid[ny]? with
  | none => .error .indexError
  | some row =>
      match row[nx]? with
      | none => .error .indexError
      | some t => .ok t

/-- The index pairs visited by the `neighbors` helper of `FindRoute`:
`ny ∈ range(max(0, y-1), min(H, y+2))`, `nx ∈ range(max(0, x-1),
min(W, x+2))`, skipping the center (truncated `Nat` subtraction is exactly
`max(0, ·-1)`). -/
def neighPairs (H W y x : Nat) : List (Nat × Nat) :=
  (List.range' (y-1) (min H (y+2) - (y-1))).flatMap fun ny =>
    (List.range' (x-1) (min W (x+2) - (x-1))).filterMap fun nx =>
      if nx = x ∧ ny = y then none else some (ny, nx)

/-- Fetch the tiles at the given index pairs, propagating `IndexError`. -/
def collectTiles (grid : List (List Tile)) :
    List (Nat × Nat) → Except PyErr (List Tile)
  | [] => .ok []
  | (ny, nx) :: r =>
      match gridAt grid ny nx with
      | .error e => .error e
      | .ok t =>
          match collectTiles grid r with
          | .error e => .error e
          | .ok ts => .ok (t :: ts)

/-- `neighbors(t)` of `FindRoute`: the up-to-8 surrounding tiles. -/
def neighborsE (grid : List (List Tile)) (H W : Nat) (t : Tile) :
    Except PyErr (List Tile) :=
  collectTiles grid (neighPairs H W t.y t.x)

/-- Coordinate-keyed association lookup (Python dicts keyed by tile
objects; object identity is coordinate identity in a well-formed grid). -/
def alookupP {α : Type} : List ((Nat × Nat) × α) → (Nat × Nat) → Option α
  | [], _ => none
  | (k, v) :: r, s => if k = s then some v else alookupP r s

/-- Coordinate-keyed association update. -/
def aupsertP {α : Type} : List ((Nat × Nat) × α) → (Nat × Nat) → α →
    List ((Nat × Nat) × α)
  | [], k, v => [(k, v)]
  | (k', v') :: r, k, v =>
      if k' = k then (k, v) :: r else (k', v') :: aupsertP r k v

/-- The mutable state of the `FindRoute` main loop. -/
structure AState where
  heap : List HeapEntry
  came : List ((Nat × Nat) × Tile)
  gscore : List ((Nat × Nat) × ℚ)
  ctr : Nat
deriving Repr

/-- Path reconstruction: `path = [current]; while current in came: current
= came[current]; path.append(current); return list(reversed(path))`.  Fuel
bounds the chain; `none` models a cyclic predecessor map, on which Python
would not terminate. -/
def reconstruct (came : List ((Nat × Nat) × Tile)) :
    Nat → Tile → List Tile → Option (List Tile)
  | 0, _, _ => none
  | fuel+1, cur, acc =>
      match alookupP came (cur.x, cur.y) with
      | none => some acc.reverse
      | some prev => reconstruct came fuel prev (acc ++ [prev])

/-- The relaxation pass over the neighbors of the popped tile: exactly the
`for nb in neighbors(current)` body of `FindRoute`. -/
def relaxAll (goal : Tile) : List Tile → Tile → AState →
    Except PyErr AState
  | [], _, st => .ok st
  | nb :: r, cur, st =>
      match alookupP st.gscore (cur.x, cur.y) with
      | none => .error .keyError
      | some gCur =>
          let cost := tile_cost nb
          let newG := gCur + cost
          let keep : Bool :=
            match alookupP st.gscore (nb.x, nb.y) with
            | none => true
            | some old => decide (newG < old)
          if keep then
            let prio : Prio :=
              (newG, ((nb.x : ℚ) - goal.x)^2 + ((nb.y : ℚ) - goal.y)^2)
            relaxAll goal r cur
              { heap := st.heap ++ [(prio, st.ctr, nb)]
                came := aupsertP st.came (nb.x, nb.y) cur
                gscore := aupsertP st.gscore (nb.x, nb.y) newG
                ctr := st.ctr + 1 }
          else relaxAll goal r cur st

/-- The `while open_heap and len(came) < max_len` loop of `FindRoute`,
with explicit fuel (`none` = the fuel ran out before the loop finished). -/
def loopA (grid : List (List Tile)) (H W : Nat) (goal : Tile)
    (maxLen : Nat) : Nat → AState →
    Option (Except PyErr (Option (List Tile)))
  | 0, _ => none
  | fuel+1, st =>
      if st.came.length < maxLen then
        match heapPop st.heap with
        | none => some (.ok none)
        | some (e, rest) =>
            let cur := e.2.2
            if cur.x = goal.x ∧ cur.y = goal.y then
              match reconstruct st.came (st.came.length + 1) cur [cur] with
              | none => none
              | some p => some (.ok (some p))
            else
              match neighborsE grid H W cur with
              | .error er => some (.error er)
              | .ok nbs =>
                  match relaxAll goal nbs cur { st with heap := rest } with
                  | .error er => some (.error er)
                  | .ok st' => loopA grid H W goal maxLen fuel st'
      else some (.ok none)

/-- `FindRoute(world, start, goal, max_len=2000)`.  An empty world makes
`len(world[0])` raise `IndexError`; otherwise the A* loop runs with the
initial heap `[(0, 0, start)]` and `gscore = {start: 0}`. -/
def findRoute (grid : List (List Tile)) (start goal : Tile) (fuel : Nat)
    (maxLen : Nat := 2000) :
    Option (Except PyErr (Option (List Tile))) :=
  match grid with
  | [] => some (.error .indexError)
  | r0 :: _ =>
      loopA grid grid.length r0.length goal maxLen fuel
        { heap := [((0, 0), 0, start)]
          came := []
          gscore := [((start.x, start.y), 0)]
          ctr := 1 }

/-- The running sum of per-tile risk over a path. -/
def riskSum : List Tile → ℚ
  | [] => 0
  | t :: r => tileRisk t + riskSum r

/-- `EvaluateRouteRisk(path)`: the additive per-tile score, floored at `0`
only at the end (`max(risk, 0.0)`).  A pure function of the tiles' current
state — the Python body performs reads only. -/
def evaluateRouteRisk (path : List Tile) : ℚ :=
  max (riskSum path) 0

/-! ### 2. Find trade partners (`FindTradePartners`)

A candidate's score is the real number
`(complementValue · affinity) / (d_euc · (1 + trait · d_euc / m))`
with `d_euc = √d_raw`; the denominator equals `√d_raw + trait·d_raw/m`,
so a score is represented exactly by the triple
`(num, q, d) ↦ num / (√d + q)` and the sort order is decided by exact
rational arithmetic. -/

/-- `sum(min(exp.get(r, 0), imp.get(r, 0)) for r in exp)`. -/
def sumMinMatch : List (String × ℚ) → List (String × ℚ) → ℚ
  | [], _ => 0
  | (k, v) :: r, other => min v ((alookupS other k).getD 0) + sumMinMatch r other

/-- A candidate score `num / (√d + q)` (denominator known nonzero). -/
structure ScoreRep where
  num : ℚ
  q : ℚ
  d : ℚ
deriving DecidableEq, Repr

/-- Decides `s ≤ t` as real numbers (cross-multiplying, with a sign case
on the two denominators). -/
def scoreLe (s t : ScoreRep) : Bool :=
  let pos1 := ! sqrtLinNonpos s.q 1 s.d
  let pos2 := ! sqrtLinNonpos t.q 1 t.d
  if pos1 = pos2 then
    sqrt2LinNonpos (s.num * t.q - t.num * s.q) s.num t.d (-t.num) s.d
  else
    sqrt2LinNonpos (t.num * s.q - s.num * t.q) t.num s.d (-s.num) t.d

/-- Strict descending comparison on `(score, osid)` tuples, as Python's
tuple comparison orders the entries of `scored`. -/
def scoredGt (a b : ScoreRep × Nat) : Bool :=
  ! scoreLe a.1 b.1 || (scoreLe a.1 b.1 && scoreLe b.1 a.1 && decide (b.2 < a.2))

/-- Stable descending insertion (ties keep their original order, as for
Python's stable `sort(reverse=True)`). -/
def insDesc (x : ScoreRep × Nat) : List (ScoreRep × Nat) → List (ScoreRep × Nat)
  | [] => [x]
  | y :: r => if scoredGt x y then x :: y :: r else y :: insDesc x r

/-- Stable descending sort of the scored candidate list. -/
def sortDesc (l : List (ScoreRep × Nat)) : List (ScoreRep × Nat) :=
  l.foldl (fun acc x => insDesc x acc) []

/-- `WorldIndex.tiles_within_radius(cx, cy, r)`: the full Chebyshev window
clipped to the grid (center included), row-major. -/
def tilesWithinRadiusIdx (grid : List (List Tile)) (cx cy r : Nat) :
    Except PyErr (List Tile) :=
  let H := grid.length
  let W := match grid with
    | [] => 0
    | r0 :: _ => r0.length
  collectTiles grid
    ((List.range' (cy - r) (min H (cy + r + 1) - (cy - r))).flatMap fun ny =>
      (List.range' (cx - r) (min W (cx + r + 1) - (cx - r))).map fun nx =>
        (ny, nx))

/-- The candidate scan of `FindTradePartners`: nearby tiles carrying an
economy system, excluding the settlement itself. -/
def scanCandidates (sid : Nat) : List Tile → List (Nat × Tile)
  | [] => []
  | t :: r =>
      match t.economy with
      | none => scanCandidates sid r
      | some e =>
          if e.sid = sid then scanCandidates sid r
          else (e.sid, t) :: scanCandidates sid r

/-- The scoring loop body of `FindTradePartners` for one settlement `A`:
complementarity (min-matched both ways), relationship-valence affinity,
anxiety-weighted distance penalty.  Zero-distance candidates and
zero-complement candidates are skipped; a missing profile for a candidate
id is a `KeyError`, a missing personality component an `AttributeError`,
and an exactly-zero score denominator a `ZeroDivisionError`. -/
def scoreCandidates (profiles : List (Nat × Profile)) (profile : Profile)
    (entityA : Entity) (proxy : ℚ) :
    List (Nat × Tile) → Except PyErr (List (ScoreRep × Nat))
  | [] => .ok []
  | (osid, otile) :: rest =>
      let dRaw := ((otile.x : ℚ) - profile.tile.x)^2 +
        ((otile.y : ℚ) - profile.tile.y)^2
      if dRaw = 0 then scoreCandidates profiles profile entityA proxy rest
      else
        match alookupN profiles osid with
        | none => .error .keyError
        | some pB =>
            let comp := sumMinMatch profile.exports pB.imports +
              sumMinMatch pB.exports profile.imports
            if comp = 0 then scoreCandidates profiles profile entityA proxy rest
            else
              let affinity : ℚ :=
                match get_settlement_ai otile.entities, entityA.relationship with
                | some eB, some relA => 1 + relA.get_rv eB.eid * (1/2)
                | _, _ => 1
              match entityA.personality with
              | none => .error .attributeError
              | some pers =>
                  let cautious := pers.get "anxiety_sensitivity"
                  let qden := cautious * dRaw / max 1 proxy
                  if qden ≤ 0 ∧ dRaw = qden^2 then .error .zeroDivisionError
                  else
                    match scoreCandidates profiles profile entityA proxy rest with
                    | .error e => .error e
                    | .ok out =>
                        .ok ((⟨comp * affinity, qden, dRaw⟩, osid) :: out)

/-- The per-settlement loop of `FindTradePartners`: settlements without a
settlement-AI entity are skipped; reading the `cautious` trait off a
missing personality component raises. -/
def partnersAux (w : World) (profiles : List (Nat × Profile))
    (maxPartners searchRadius : Nat) :
    List (Nat × Profile) → List (Nat × List Nat) →
    Except PyErr (List (Nat × List Nat))
  | [], acc => .ok acc
  | (sid, profile) :: rest, acc =>
      match get_settlement_ai profile.tile.entities with
      | none => partnersAux w profiles maxPartners searchRadius rest acc
      | some entityA =>
          match entityA.personality with
          | none => .error .attributeError
          | some _ =>
              let proxy := (searchRadius : ℚ) * (3/4)
              match tilesWithinRadiusIdx w.grid profile.tile.x
                  profile.tile.y searchRadius with
              | .error e => .error e
              | .ok nearby =>
                  match scoreCandidates profiles profile entityA proxy
                      (scanCandidates sid nearby) with
                  | .error e => .error e
                  | .ok scored =>
                      partnersAux w profiles maxPartners searchRadius rest
                        (acc ++
                          [(sid, ((sortDesc scored).take maxPartners).map (·.2))])

/-- `FindTradePartners(world, profiles, max_partners=3, search_radius=60)`. -/
def findTradePartners (w : World) (profiles : List (Nat × Profile))
    (maxPartners : Nat := 3) (searchRadius : Nat := 60) :
    Except PyErr (List (Nat × List Nat)) :=
  partnersAux w profiles maxPartners searchRadius profiles []

/-! ### 7B. Network synthesis (`GenerateTradeRoutes`) -/

/-- The ordered pairs `(i, j .. i < j)` enumerated by the pairwise-path
double loop of STEP 2. -/
def allPairs {α : Type} : List α → List (α × α)
  | [] => []
  | a :: r => r.map (fun b => (a, b)) ++ allPairs r

/-- STEP 2: run the route planner over every settlement pair and cache
`(path, total_cost)` under both orientations of the pair.  A falsy (empty
or absent) path skips the pair. -/
def distAux (grid : List (List Tile)) (fuel : Nat) :
    List ((Nat × Profile) × (Nat × Profile)) →
    List ((Nat × Nat) × (List Tile × ℚ)) →
    Option (Except PyErr (List ((Nat × Nat) × (List Tile × ℚ))))
  | [], acc => some (.ok acc)
  | ((sa, pa), (sb, pb)) :: rest, acc =>
      match findRoute grid pa.tile pb.tile fuel with
      | none => none
      | some (.error e) => some (.error e)
      | some (.ok none) => distAux grid fuel rest acc
      | some (.ok (some path)) =>
          if path.isEmpty then distAux grid fuel rest acc
          else
            let cost := path_cost path
            distAux grid fuel rest
              (aupsertP (aupsertP acc (sa, sb) (path, cost)) (sb, sa)
                (path, cost))

/-- A Kruskal candidate edge `(cost, sidA, sidB, path)`. -/
abbrev EdgeT := ℚ × Nat × Nat × List Tile

/-- The edge list: one entry per `sidA < sidB` key of the distance cache,
in cache insertion order. -/
def edgesOf (dist : List ((Nat × Nat) × (List Tile × ℚ))) : List EdgeT :=
  dist.foldr
    (fun kv acc =>
      if kv.1.1 < kv.1.2 then (kv.2.2, kv.1.1, kv.1.2, kv.2.1) :: acc
      else acc) []

/-- Stable insertion by ascending cost (Python's stable `sort(key=cost)`). -/
def insEdge (e : EdgeT) : List EdgeT → List EdgeT
  | [] => [e]
  | f :: r => if e.1 < f.1 then e :: f :: r else f :: insEdge e r

/-- Stable ascending sort of the candidate edges by cost. -/
def sortEdges (l : List EdgeT) : List EdgeT :=
  l.foldl (fun acc e => insEdge e acc) []

/-- The `find` of the union-find, with path halving exactly as in the
source (`parent[x] = parent[parent[x]]; x = parent[x]`), fuelled: on a
forest over `n` settlements a fuel of `n` always suffices. -/
def findFuel : Nat → (Nat → Nat) → Nat → ((Nat → Nat) × Nat)
  | 0, p, x => (p, x)
  | n+1, p, x =>
      if p x = x then (p, x)
      else
        let y := p (p x)
        findFuel n (fun z => if z = x then y else p z) y

/-- The `union` of the union-find: find both roots, attach `rb` under
`ra`, report whether two distinct components were merged. -/
def unionFuel (n : Nat) (p : Nat → Nat) (a b : Nat) : (Nat → Nat) × Bool :=
  let (p1, ra) := findFuel n p a
  let (p2, rb) := findFuel n p1 b
  if ra = rb then (p2, false)
  else ((fun z => if z = rb then ra else p2 z), true)

/-- STEP 3, the Kruskal loop: accept an edge iff it merges two distinct
components, then push the link (risk, symmetric trade value, same path
object) onto both endpoints' lists. -/
def kruskalAux (profiles : List (Nat × Profile)) (n : Nat) :
    List EdgeT → (Nat → Nat) → LinkDict Link →
    Except PyErr ((Nat → Nat) × LinkDict Link)
  | [], p, links => .ok (p, links)
  | (_, sa, sb, path) :: rest, p, links =>
      let (p', merged) := unionFuel n p sa sb
      if merged then
        match alookupN profiles sa, alookupN profiles sb with
        | some pa, some pb =>
            let risk := evaluateRouteRisk path
            let value := computeTradeValue pa pb
            kruskalAux profiles n rest p'
              ((links.append sa ⟨sb, value, risk, path⟩).append sb
                ⟨sa, value, risk, path⟩)
        | _, _ => .error .keyError
      else kruskalAux profiles n rest p' links

/-- STEPs 2–3 of `GenerateTradeRoutes` on an extracted profile list: the
pairwise distance cache, then the Kruskal/union-find backbone
(`mst_links`). -/
def mstOfProfiles (grid : List (List Tile)) (fuel : Nat)
    (profiles : List (Nat × Profile)) :
    Option (Except PyErr (LinkDict Link)) :=
  match distAux grid fuel (allPairs profiles) [] with
  | none => none
  | some (.error e) => some (.error e)
  | some (.ok dist) =>
      match kruskalAux profiles profiles.length (sortEdges (edgesOf dist))
          (fun x => x) ⟨[]⟩ with
      | .error e => some (.error e)
      | .ok (_, links) => some (.ok links)

/-- STEP 4, inner loop: the supplementary partner-shortlist links of one
settlement (`value <= 0` and failed/empty routes are skipped). -/
def extrasInner (grid : List (List Tile)) (fuel : Nat)
    (profiles : List (Nat × Profile)) (sid : Nat) (A : Profile) :
    List Nat → LinkDict Link → Option (Except PyErr (LinkDict Link))
  | [], acc => some (.ok acc)
  | osid :: rest, acc =>
      match alookupN profiles osid with
      | none => some (.error .keyError)
      | some B =>
          let value := computeTradeValue A B
          if value ≤ 0 then extrasInner grid fuel profiles sid A rest acc
          else
            match findRoute grid A.tile B.tile fuel with
            | none => none
            | some (.error e) => some (.error e)
            | some (.ok none) => extrasInner grid fuel profiles sid A rest acc
            | some (.ok (some path)) =>
                if path.isEmpty then
                  extrasInner grid fuel profiles sid A rest acc
                else
                  extrasInner grid fuel profiles sid A rest
                    (acc.append sid
                      ⟨osid, value, evaluateRouteRisk path, path⟩)

/-- STEP 4, outer loop over the partner map. -/
def extrasAux (grid : List (List Tile)) (fuel : Nat)
    (profiles : List (Nat × Profile)) :
    List (Nat × List Nat) → LinkDict Link →
    Option (Except PyErr (LinkDict Link))
  | [], acc => some (.ok acc)
  | (sid, plist) :: rest, acc =>
      match alookupN profiles sid with
      | none => some (.error .keyError)
      | some A =>
          match extrasInner grid fuel profiles sid A plist acc with
          | none => none
          | some (.error e) => some (.error e)
          | some (.ok acc') => extrasAux grid fuel profiles rest acc'

/-- STEP 5, per-settlement merge: append the supplementary links whose
`(partner, path)` key is not among those of the already-merged list.  The
`existing` key set is computed once, before any of this settlement's
appends (exactly as in the source). -/
def mergeLinksInto (cur : List Link) (links : List Link) : List Link :=
  let existing := cur.map linkKey
  links.foldl (fun acc l => if linkKey l ∈ existing then acc else acc ++ [l])
    cur

/-- STEP 5 over the extras dict: each settlement's entry is read with the
defaultdict (key-creating) read, then merged. -/
def mergeExtras : List (Nat × List Link) → LinkDict Link → LinkDict Link
  | [], d => d
  | (sid, links) :: rest, d =>
      let (cur, d1) := d.getCreate sid
      mergeExtras rest ⟨aupsertN d1.entries sid (mergeLinksInto cur links)⟩

/-- Copy of the backbone into the merged dict:
`for sid, links in mst_links.items(): trade_links[sid].extend(links)`. -/
def copyMst : List (Nat × List Link) → LinkDict Link → LinkDict Link
  | [], d => d
  | (sid, links) :: rest, d => copyMst rest (d.extend sid links)

/-! ### 6. Settlement tagging (`TagSettlements`)

Tag mutations go to the grid tile with the settlement's coordinates —
in a well-formed world that is exactly the tile object Python mutates. -/

/-- Apply a transformation to every grid tile with the given coordinates. -/
def mapTileAt (grid : List (List Tile)) (x y : Nat) (f : Tile → Tile) :
    List (List Tile) :=
  grid.map (List.map fun t => if t.x = x ∧ t.y = y then f t else t)

/-- `tile.add_tag(tag)`: append unless already present (the tags used here
are already lower-case). -/
def addTag (tag : String) (t : Tile) : Tile :=
  if tag ∈ t.tags then t else { t with tags := t.tags ++ [tag] }

/-- The derived tags removed at the start of the first tagging loop. -/
def derivedTags : List String :=
  ["prosperous", "struggling", "supplies_deficit",
   "trade_hub", "bandit_settlement", "bandit_infested_settlement"]

/-- Remove all derived tags (`list.remove` drops the first occurrence). -/
def removeDerived (t : Tile) : Tile :=
  { t with tags := derivedTags.foldl (fun tg tag => tg.erase tag) t.tags }

/-- The sum of the `risk` fields of a link list. -/
def sumRisk : List Link → ℚ
  | [] => 0
  | l :: r => l.risk + sumRisk r

/-- The sum of the `value` fields of a link list. -/
def sumValue : List Link → ℚ
  | [] => 0
  | l :: r => l.value + sumValue r

/-- First tagging loop: prosperity tags, supplies deficit, trade hub. -/
def tagLoop1 (routes : LinkDict Link) :
    List (Nat × Profile) → List (List Tile) → List (List Tile)
  | [], grid => grid
  | (sid, prof) :: rest, grid =>
      let x := prof.tile.x
      let y := prof.tile.y
      let grid1 := mapTileAt grid x y removeDerived
      let grid2 :=
        if 200 < prof.prosperity then mapTileAt grid1 x y (addTag "prosperous")
        else if prof.prosperity < 40 then
          mapTileAt grid1 x y (addTag "struggling")
        else grid1
      let grid3 :=
        if prof.supplies < prof.population * (1/2) then
          mapTileAt grid2 x y (addTag "supplies_deficit")
        else grid2
      let grid4 :=
        if 3 ≤ (routes.get sid).length then
          mapTileAt grid3 x y (addTag "trade_hub")
        else grid3
      tagLoop1 routes rest grid4

/-- `GetTilesWithinRadius(world, x, y, radius)` from `world_utils.py`:
Chebyshev window clipped to the grid, center excluded. -/
def tilesWithinRadiusUtil (grid : List (List Tile)) (x y r : Nat) :
    Except PyErr (List Tile) :=
  let H := grid.length
  let W := match grid with
    | [] => 0
    | r0 :: _ => r0.length
  collectTiles grid
    ((List.range' (y - r) (min H (y + r + 1) - (y - r))).flatMap fun ny =>
      (List.range' (x - r) (min W (x + r + 1) - (x - r))).filterMap fun nx =>
        if nx = x ∧ ny = y then none else some (ny, nx))

/-- The "wilderness" terrain test of the conflict-trigger pass. -/
def isWildTerrain (t : Tile) : Bool :=
  decide (t.terrain ≠ "settlement" ∧ t.terrain ≠ "coastal" ∧
    t.terrain ≠ "plains" ∧ t.terrain ≠ "riverside")

/-- Second tagging loop: the two-of-three conflict trigger
(route risk, hostile relation, wilderness exposure) gated by low
prosperity.  Reading `prosperity` off a missing economy dict raises. -/
def tagLoop2 (routes : LinkDict Link) :
    List (Nat × Profile) → List (List Tile) →
    Except PyErr (List (List Tile))
  | [], grid => .ok grid
  | (_sid, prof) :: rest, grid =>
      match prof.tile.economy with
      | none => .error .attributeError
      | some econ =>
          let links := routes.get _sid
          let avgRisk := sumRisk links / ((max 1 links.length : Nat) : ℚ)
          let riskA : Nat := if 2 < avgRisk then 1 else 0
          let riskB : Nat :=
            match get_settlement_ai prof.tile.entities with
            | none => 0
            | some ent =>
                match ent.relationship with
                | none => 0
                | some rel =>
                    if rel.table.any (fun kv =>
                        decide (kv.2.rv < -(1/2)) && decide (kv.2.rs < -(1/2)))
                    then 1 else 0
          match tilesWithinRadiusUtil grid prof.tile.x prof.tile.y 3 with
          | .error e => .error e
          | .ok nbs =>
              let wild := (nbs.filter isWildTerrain).length
              let riskC : Nat := if 5 < wild then 1 else 0
              let grid' :=
                if econ.prosperity < 50 ∧ 2 ≤ riskA + riskB + riskC then
                  mapTileAt grid prof.tile.x prof.tile.y
                    (addTag "bandit_infested_settlement")
                else grid
              tagLoop2 routes rest grid'

/-- `TagSettlements(world, profiles, routes)`. -/
def tagSettlements (grid : List (List Tile))
    (profiles : List (Nat × Profile)) (routes : LinkDict Link) :
    Except PyErr (List (List Tile)) :=
  tagLoop2 routes profiles (tagLoop1 routes profiles grid)

/-- `GenerateTradeRoutes(world)`: profiles; early exit on `n ≤ 1`;
pairwise routes and Kruskal backbone; supplementary partner routes;
merge with duplicate suppression; tagging.  Returns the merged graph
together with the world as mutated by the tagger. -/
def generateTradeRoutes (w : World) (fuel : Nat) :
    Option (Except PyErr (LinkDict Link × World)) :=
  match collectSettlementProfiles w with
  | .error e => some (.error e)
  | .ok profiles =>
      if profiles.length ≤ 1 then some (.ok (⟨[]⟩, w))
      else
        match mstOfProfiles w.grid fuel profiles with
        | none => none
        | some (.error e) => some (.error e)
        | some (.ok mst) =>
            match findTradePartners w profiles with
            | .error e => some (.error e)
            | .ok partners =>
                match extrasAux w.grid fuel profiles partners ⟨[]⟩ with
                | none => none
                | some (.error e) => some (.error e)
                | some (.ok extras) =>
                    let merged :=
                      mergeExtras extras.entries (copyMst mst.entries ⟨[]⟩)
                    match tagSettlements w.grid profiles merged with
                    | .error e => some (.error e)
                    | .ok grid' =>
                        some (.ok (merged, { w with grid := grid' }))

/-! ### 8. Per-tick effect application and risk refresh -/

/-- Update the economy dict of every world copy of the tile at the given
coordinates (grid and spatial index hold the same tile object). -/
def setEconAt (w : World) (x y : Nat) (e : EconSys) : World :=
  { w with
    grid := mapTileAt w.grid x y (fun t => { t with economy := some e })
    econIndex := w.econIndex.map fun t =>
      if t.x = x ∧ t.y = y then { t with economy := some e } else t }

/-- `settlement_by_id`: economy id → tile over the active economy tiles
(the spatial-index fast path of `GetActiveTiles`). -/
def buildById : List Tile → List (Nat × Tile) → List (Nat × Tile)
  | [], acc => acc
  | t :: r, acc =>
      match t.economy with
      | none => buildById r acc
      | some e => buildById r (aupsertN acc e.sid t)

/-- The per-settlement body of `ApplyTradeEffects`: diminishing-returns
trade gain scaled inversely by price, risk cost mitigated by
`sqrt(power_projection)`, both wealth and supplies clamped at `0`.
`powf` and `sqrtf` model the transcendental float operations `x ** p` and
`math.sqrt`; the trade engine's control flow does not depend on them. -/
def applyLinks (powf : ℚ → ℚ → ℚ) (sqrtf : ℚ → ℚ)
    (byId : List (Nat × Tile)) :
    List (Nat × List Link) → World → Except PyErr World
  | [], w => .ok w
  | (sid, links) :: rest, w =>
      match alookupN byId sid with
      | none => applyLinks powf sqrtf byId rest w
      | some tile =>
          match tile.economy with
          | none => applyLinks powf sqrtf byId rest w
          | some econ =>
              let tradeGain := powf (sumValue links) (7/10)
              let price := econ.price_multiplier
              if price = 0 then .error .zeroDivisionError
              else
                let wealth1 := econ.wealth + tradeGain * (4/100) * (1/price)
                let supplies1 :=
                  econ.supplies + tradeGain * (2/100) * (1/price)
                let defense := max 1 econ.power_projection
                let mitigation := sqrtf defense
                if mitigation = 0 then .error .zeroDivisionError
                else
                  let riskEffect := sumRisk links / mitigation
                  let wealth2 := max 0 (wealth1 - riskEffect * (2/100))
                  let supplies2 :=
                    max 0 (supplies1 - riskEffect * (15/1000))
                  applyLinks powf sqrtf byId rest
                    (setEconAt w tile.x tile.y
                      { econ with wealth := wealth2, supplies := supplies2 })

/-- `ApplyTradeEffects(world)`: reads the graph straight off the meta dict
of tile `(0,0)` (`meta["trade_links"]` — an absent meta system is a
`TypeError`, an absent key a `KeyError`), then applies gains and risk
costs per settlement. -/
def applyTradeEffects (powf : ℚ → ℚ → ℚ) (sqrtf : ℚ → ℚ) (w : World) :
    Except PyErr World :=
  match gridAt w.grid 0 0 with
  | .error e => .error e
  | .ok _t00 =>
  match w.meta00 with
  | none => .error .typeError
  | some meta =>
      match meta.trade_links with
      | none => .error .keyError
      | some tl =>
          applyLinks powf sqrtf (buildById w.econIndex []) tl.entries w

/-- The rebuild loop of `UpdateTradeRouteRisks`: re-evaluate every stored
link's risk from the current path tiles and append it to a fresh
`defaultdict(list)`. -/
def refreshLinks : List (Nat × List Link) → LinkDict Link → LinkDict Link
  | [], d => d
  | (sid, links) :: rest, d =>
      refreshLinks rest
        (links.foldl
          (fun dd l => dd.append sid { l with risk := evaluateRouteRisk l.path })
          d)

/-- `UpdateTradeRouteRisks(world)`: a falsy stored graph (absent key or
empty dict) returns silently; an absent meta system raises
(`None.get(...)`); otherwise every link's risk is recomputed and the slot
is overwritten with the rebuilt dict. -/
def updateTradeRouteRisks (w : World) : Except PyErr World :=
  match gridAt w.grid 0 0 with
  | .error e => .error e
  | .ok _t00 =>
  match w.meta00 with
  | none => .error .attributeError
  | some meta =>
      match meta.trade_links with
      | none => .ok w
      | some tl =>
          if tl.entries = [] then .ok w
          else
            .ok { w with
              meta00 := some ⟨some (refreshLinks tl.entries ⟨[]⟩)⟩ }

/-! ### Concrete test worlds

A two-settlement world on a `1 × 2` grid (settlement `1` exports fish,
settlement `2` has import demand), and three one-tile worlds exercising
the `meta` storage slot. -/

/-- Economy of settlement `1`: exports 5 fish, no demand (population 0). -/
def econA : EconSys :=
  ⟨1, 0, 100, 0, 0, 0, 0, 1, 1, [("fish", 5)]⟩

/-- Economy of settlement `2`: nothing on hand, population 200. -/
def econB : EconSys :=
  ⟨2, 200, 100, 0, 0, 0, 0, 1, 1, []⟩

/-- Tile `(0,0)` carrying settlement `1`. -/
def tileA : Tile :=
  ⟨0, 0, "settlement", none, 1, [], [], some econA, none, none, none, none,
    none⟩

/-- Tile `(1,0)` carrying settlement `2`. -/
def tileB : Tile :=
  ⟨1, 0, "settlement", none, 1, [], [], some econB, none, none, none, none,
    none⟩

/-- The two-settlement world. -/
def wPair : World := ⟨[[tileA, tileB]], [tileA, tileB], none⟩

/-- The profile extracted for settlement `1`. -/
def profA : Profile := ⟨tileA, [("fish", 5)], [], 0, 100, 0, 0, 0, 0⟩

/-- The profile extracted for settlement `2`. -/
def profB : Profile :=
  ⟨tileB, [],
    [("grain", 4), ("meat", 3), ("fish", 2), ("timber", 1),
      ("stone", 3/5), ("iron", 2/5)], 200, 100, 0, 0, 0, 0⟩

/-- The backbone link stored for settlement `1`. -/
def linkAB : Link := ⟨2, 15/2, 0, [tileA, tileB]⟩

/-- The backbone link stored for settlement `2` (same path object). -/
def linkBA : Link := ⟨1, 15/2, 0, [tileA, tileB]⟩

/-- The trade graph produced on `wPair`. -/
def gPair : LinkDict Link := ⟨[(1, [linkAB]), (2, [linkBA])]⟩

/-- Tile `(0,0)` after the tagging pass. -/
def tileA1 : Tile := { tileA with tags := ["struggling"] }

/-- Tile `(1,0)` after the tagging pass. -/
def tileB1 : Tile := { tileB with tags := ["struggling", "supplies_deficit"] }

/-- A bare tile at the origin with no systems attached. -/
def tileM : Tile :=
  ⟨0, 0, "plains", none, 1, [], [], none, none, none, none, none, none⟩

/-- A world whose meta dict exists but has no `trade_links` key. -/
def wNoKey : World := ⟨[[tileM]], [], some ⟨none⟩⟩

/-- A world whose stored trade graph is the empty dict. -/
def wEmptyDict : World := ⟨[[tileM]], [], some ⟨some ⟨[]⟩⟩⟩

/-- A world whose stored trade graph has a settlement key with an empty
link list. -/
def wEmptyLinks : World := ⟨[[tileM]], [], some ⟨some ⟨[(7, [])]⟩⟩⟩

/-- `wPair` after the tagging pass of `GenerateTradeRoutes` (the spatial
index entries are the same tile objects in Python; their value copies here
are not re-read by the engine afterwards). -/
def wPairTagged : World := ⟨[[tileA1, tileB1]], [tileA, tileB], none⟩

/-- A world with one stored link, for exercising the risk refresh. -/
def wOneLink : World :=
  ⟨[[tileM]], [], some ⟨some ⟨[(7, [⟨9, 1, 5, [tileM]⟩])]⟩⟩⟩

/-! ### Statement vocabulary

Definitions used only to state the verified properties. -/

/-- The tile state that `EvaluateRouteRisk` reads: tags, biome, and the
weather/humidity/soil/eco/eco-risk subsystem dicts. -/
def riskStateEq (t u : Tile) : Prop :=
  t.tags = u.tags ∧ t.biome = u.biome ∧ t.weather = u.weather ∧
    t.humidity = u.humidity ∧ t.soil = u.soil ∧ t.eco = u.eco ∧
    t.eco_risk = u.eco_risk

/-- Backbone symmetry of a link dict: every stored link has a mirror link
on its partner's list with the same value, risk and the *same* path. -/
def MirrorIn (d : LinkDict Link) : Prop :=
  ∀ sid l, l ∈ d.get sid →
    ∃ l2, l2 ∈ d.get l.partner ∧ l2.partner = sid ∧ l2.value = l.value ∧
      l2.risk = l.risk ∧ l2.path = l.path

/-- `a` holds a stored link to `b` in the graph `d`. -/
def linkedIn (d : LinkDict Link) (a b : Nat) : Prop :=
  ∃ l ∈ d.get a, l.partner = b

/-- One undirected backbone hop. -/
def linkedU (d : LinkDict Link) (a b : Nat) : Prop :=
  linkedIn d a b ∨ linkedIn d b a

/-- Iterated application of a parent map. -/
def iterP (p : Nat → Nat) : Nat → Nat → Nat
  | 0, x => x
  | n+1, x => iterP p n (p x)

/-- `y` lies on the parent chain of `x`. -/
def reaches (p : Nat → Nat) (x y : Nat) : Prop :=
  ∃ m, iterP p m x = y

/-- The value the specification's claim C3 asserts for an MST edge: the
plain complement sum `Σ exportsA∩importsB + Σ exportsB∩importsA`, with no
other factor. -/
def specComplementValue (pA pB : Profile) : ℚ :=
  sumMatched pA.exports pB.imports + sumMatched pB.exports pA.imports

/-- The min-matched variant of the complement value (the partner matcher's
scoring formula, which claim C3 also references). -/
def specMinComplementValue (pA pB : Profile) : ℚ :=
  sumMinMatch pA.exports pB.imports + sumMinMatch pB.exports pA.imports

/-- The total cost claim C4 asserts for a cached pair: the tile-cost sum
over the path excluding the source tile. -/
def specExcludeSourceCost (p : List Tile) : ℚ :=
  path_cost (p.drop 1)

/-- Non-negativity of every link stored in a link dict. -/
def NonnegLinks (d : LinkDict Link) : Prop :=
  ∀ p ∈ d.entries, ∀ l ∈ p.2, 0 ≤ l.value ∧ 0 ≤ l.risk

/-- A rectangular grid: every row has the length of the first row. -/
def RectGrid (grid : List (List Tile)) : Prop :=
  ∀ row ∈ grid, row.length = (grid.headD []).length

/-- Connectivity along a chain of undirected backbone hops. -/
abbrev connectedU (d : LinkDict Link) : Nat → Nat → Prop :=
  Relation.ReflTransGen (linkedU d)

/-- The `FindRoute` loop invariant: every tile sitting in the open heap
has a `gscore` entry, so `gscore[current]` never raises. -/
def HeapInv (st : AState) : Prop :=
  ∀ e ∈ st.heap, ∃ g, alookupP st.gscore (e.2.2.x, e.2.2.y) = some g

/-! ## Basic lemmas -/

theorem aupsertP_mem {α : Type} {l : List ((Nat × Nat) × α)} {k : Nat × Nat}
    {v : α} {x : (Nat × Nat) × α} (h : x ∈ aupsertP l k v) :
    x = (k, v) ∨ x ∈ l := by
  induction l with
  | nil => simpa [aupsertP] using h
  | cons hd tl ih =>
      rcases hd with ⟨k', v'⟩
      by_cases hk : k' = k
      · simp only [aupsertP, if_pos hk, List.mem_cons] at h
        rcases h with h | h
        · exact .inl h
        · exact .inr (List.mem_cons_of_mem _ h)
      · simp only [aupsertP, if_neg hk, List.mem_cons] at h
        rcases h with h | h
        · exact .inr (h ▸ List.mem_cons_self _ _)
        · rcases ih h with h' | h'
          · exact .inl h'
          · exact .inr (List.mem_cons_of_mem _ h')

theorem alookupN_aupsertN_self {α : Type} (l : List (Nat × α)) (k : Nat)
    (v : α) : alookupN (aupsertN l k v) k = some v := by
  induction l with
  | nil => simp [aupsertN, alookupN]
  | cons hd tl ih =>
      rcases hd with ⟨k', v'⟩
      by_cases h : k' = k
      · simp [aupsertN, h, alookupN]
      · simp [aupsertN, h, alookupN, ih]

theorem alookupN_aupsertN_ne {α : Type} (l : List (Nat × α)) (k k' : Nat)
    (v : α) (h : k' ≠ k) :
    alookupN (aupsertN l k v) k' = alookupN l k' := by
  induction l with
  | nil =>
      simp only [aupsertN, alookupN]
      rw [if_neg fun hh => h hh.symm]
  | cons hd tl ih =>
      rcases hd with ⟨k2, v2⟩
      by_cases h2 : k2 = k
      · subst h2
        simp only [aupsertN, if_pos rfl, alookupN]
        rw [if_neg fun hh => h hh.symm, if_neg fun hh => h hh.symm]
      · simp only [aupsertN, if_neg h2, alookupN, ih]

theorem alookupN_mem {α : Type} {l : List (Nat × α)} {k : Nat} {v : α}
    (h : alookupN l k = some v) : (k, v) ∈ l := by
  induction l with
  | nil => simp [alookupN] at h
  | cons hd tl ih =>
      rcases hd with ⟨k', v'⟩
      by_cases hk : k' = k
      · rw [show alookupN ((k', v') :: tl) k = some v' from if_pos hk] at h
        obtain rfl := Option.some.inj h
        subst hk
        exact List.mem_cons_self _ _
      · simp only [alookupN, if_neg hk] at h
        exact List.mem_cons_of_mem _ (ih h)

theorem alookupN_append {α : Type} (l1 l2 : List (Nat × α)) (k : Nat) :
    alookupN (l1 ++ l2) k =
      match alookupN l1 k with
      | some v => some v
      | none => alookupN l2 k := by
  induction l1 with
  | nil => simp [alookupN]
  | cons hd tl ih =>
      rcases hd with ⟨k', v'⟩
      by_cases hk : k' = k
      · simp [alookupN, hk]
      · simp [alookupN, hk, ih]

theorem LinkDict.get_getCreate_fst {L : Type} (d : LinkDict L) (k : Nat) :
    (d.getCreate k).1 = d.get k := by
  unfold LinkDict.getCreate LinkDict.get
  cases h : alookupN d.entries k <;> simp [h]

theorem LinkDict.get_getCreate_snd {L : Type} (d : LinkDict L) (k k' : Nat) :
    ((d.getCreate k).2).get k' = d.get k' := by
  unfold LinkDict.getCreate LinkDict.get
  cases h : alookupN d.entries k with
  | none =>
      simp only
      rw [alookupN_append]
      cases h2 : alookupN d.entries k' with
      | none => by_cases he : k = k' <;> simp [alookupN, he]
      | some v => simp
  | some v => simp

theorem LinkDict.get_append_self {L : Type} (d : LinkDict L) (k : Nat)
    (x : L) : (d.append k x).get k = d.get k ++ [x] := by
  unfold LinkDict.append
  rw [show (d.getCreate k) = ((d.getCreate k).1, (d.getCreate k).2) from rfl]
  simp only [LinkDict.get, alookupN_aupsertN_self, Option.getD_some,
    LinkDict.get_getCreate_fst]

theorem LinkDict.get_append_ne {L : Type} (d : LinkDict L) (k k' : Nat)
    (x : L) (h : k' ≠ k) : (d.append k x).get k' = d.get k' := by
  unfold LinkDict.append
  rw [show (d.getCreate k) = ((d.getCreate k).1, (d.getCreate k).2) from rfl]
  have := LinkDict.get_getCreate_snd d k k'
  simp only [LinkDict.get, alookupN_aupsertN_ne _ _ _ _ h] at this ⊢
  exact this

theorem LinkDict.get_extend_self {L : Type} (d : LinkDict L) (k : Nat)
    (xs : List L) : (d.extend k xs).get k = d.get k ++ xs := by
  unfold LinkDict.extend
  rw [show (d.getCreate k) = ((d.getCreate k).1, (d.getCreate k).2) from rfl]
  simp only [LinkDict.get, alookupN_aupsertN_self, Option.getD_some,
    LinkDict.get_getCreate_fst]

theorem LinkDict.get_extend_ne {L : Type} (d : LinkDict L) (k k' : Nat)
    (xs : List L) (h : k' ≠ k) : (d.extend k xs).get k' = d.get k' := by
  unfold LinkDict.extend
  rw [show (d.getCreate k) = ((d.getCreate k).1, (d.getCreate k).2) from rfl]
  have := LinkDict.get_getCreate_snd d k k'
  simp only [LinkDict.get, alookupN_aupsertN_ne _ _ _ _ h] at this ⊢
  exact this

theorem LinkDict.get_append_suffix {L : Type} (d : LinkDict L) (k k' : Nat)
    (x : L) : ∃ suf, (d.append k x).get k' = d.get k' ++ suf := by
  by_cases h : k' = k
  · subst h; exact ⟨[x], LinkDict.get_append_self d k' x⟩
  · exact ⟨[], by rw [LinkDict.get_append_ne d k k' x h, List.append_nil]⟩

theorem LinkDict.get_extend_suffix {L : Type} (d : LinkDict L) (k k' : Nat)
    (xs : List L) : ∃ suf, (d.extend k xs).get k' = d.get k' ++ suf := by
  by_cases h : k' = k
  · subst h; exact ⟨xs, LinkDict.get_extend_self d k' xs⟩
  · exact ⟨[], by rw [LinkDict.get_extend_ne d k k' xs h, List.append_nil]⟩

theorem mergeLinksInto_suffix (cur links : List Link) :
    ∃ suf, mergeLinksInto cur links = cur ++ suf := by
  unfold mergeLinksInto
  generalize cur.map linkKey = existing
  induction links generalizing cur with
  | nil => exact ⟨[], by simp⟩
  | cons hd tl ih =>
      simp only [List.foldl_cons]
      by_cases h : linkKey hd ∈ existing
      · rw [if_pos h]; exact ih cur
      · rw [if_neg h]
        rcases ih (cur ++ [hd]) with ⟨suf, hsuf⟩
        exact ⟨[hd] ++ suf, by rw [hsuf, List.append_assoc]⟩

theorem copyMst_get_suffix (es : List (Nat × List Link))
    (d : LinkDict Link) (k : Nat) :
    ∃ suf, (copyMst es d).get k = d.get k ++ suf := by
  induction es generalizing d with
  | nil => exact ⟨[], by simp [copyMst]⟩
  | cons hd tl ih =>
      rcases hd with ⟨sid, links⟩
      simp only [copyMst]
      rcases ih (d.extend sid links) with ⟨s2, h2⟩
      rcases LinkDict.get_extend_suffix d sid k links with ⟨s1, h1⟩
      exact ⟨s1 ++ s2, by rw [h2, h1, List.append_assoc]⟩

theorem mergeExtras_get_suffix (es : List (Nat × List Link))
    (d : LinkDict Link) (k : Nat) :
    ∃ suf, (mergeExtras es d).get k = d.get k ++ suf := by
  induction es generalizing d with
  | nil => exact ⟨[], by simp [mergeExtras]⟩
  | cons hd tl ih =>
      rcases hd with ⟨sid, links⟩
      simp only [mergeExtras]
      rw [show (d.getCreate sid) =
        ((d.getCreate sid).1, (d.getCreate sid).2) from rfl]
      simp only
      set d1 := (d.getCreate sid).2 with hd1
      rcases ih ⟨aupsertN d1.entries sid
        (mergeLinksInto (d.getCreate sid).1 links)⟩ with ⟨s2, h2⟩
      rw [h2]
      by_cases hk : k = sid
      · subst hk
        rcases mergeLinksInto_suffix (d.getCreate k).1 links with ⟨s1, h1⟩
        refine ⟨s1 ++ s2, ?_⟩
        have : (⟨aupsertN d1.entries k
            (mergeLinksInto (d.getCreate k).1 links)⟩ : LinkDict Link).get k =
            mergeLinksInto (d.getCreate k).1 links := by
          simp [LinkDict.get, alookupN_aupsertN_self]
        rw [this, h1, LinkDict.get_getCreate_fst, List.append_assoc]
      · refine ⟨s2, ?_⟩
        have : (⟨aupsertN d1.entries sid
            (mergeLinksInto (d.getCreate sid).1 links)⟩ : LinkDict Link).get k =
            d1.get k := by
          simp [LinkDict.get, alookupN_aupsertN_ne _ _ _ _ hk]
        rw [this, hd1, LinkDict.get_getCreate_snd]

/-- Every stored backbone entry survives into the copied dict. -/
theorem copyMst_mem : ∀ (es : List (Nat × List Link)) (d : LinkDict Link)
    {sid : Nat} {links : List Link}, (sid, links) ∈ es →
    ∀ l ∈ links, l ∈ (copyMst es d).get sid := by
  intro es
  induction es with
  | nil => intro d sid links hm; cases hm
  | cons hd tl ih =>
      intro d sid links hm l hl
      rcases List.mem_cons.1 hm with h | h
      · subst h
        simp only [copyMst]
        rcases copyMst_get_suffix tl (d.extend sid links) sid with ⟨suf, hs⟩
        rw [hs, LinkDict.get_extend_self]
        exact List.mem_append_left _ (List.mem_append_right _ hl)
      · rcases hd with ⟨sid', links'⟩
        simp only [copyMst]
        exact ih (d.extend sid' links') h l hl

/-- `ComputeTradeValue` is symmetric in its two profiles. -/
theorem computeTradeValue_comm (pA pB : Profile) :
    computeTradeValue pA pB = computeTradeValue pB pA := by
  simp only [computeTradeValue]
  rw [add_comm (sumMatched pA.exports pB.imports)
    (sumMatched pB.exports pA.imports), add_comm pA.wealth pB.wealth,
    add_comm pA.supplies pB.supplies]

/-! ## C6: the risk evaluation is idempotent and reads only live tile
state -/

theorem tileRisk_congr {t u : Tile} (h : riskStateEq t u) :
    tileRisk t = tileRisk u := by
  obtain ⟨h1, h2, h3, h4, h5, h6, h7⟩ := h
  unfold tileRisk
  rw [h1, h2, h3, h4, h5, h6, h7]

/-- C6.  Risk evaluation is idempotent and side-effect-free: it is a pure
function of the path (re-running it on the same path gives the same
score, and running it mutates nothing — the embedding of the Python body
consists of reads only), and the score is recomputed from exactly the
live per-tile state (tags, biome, weather, humidity, soil, eco,
eco-risk): any two paths that agree tile by tile on that state get the
same score, so no running total is carried between calls. -/
theorem evaluateRouteRisk_idempotent_state_local (p q : List Tile)
    (h : List.Forall₂ riskStateEq p q) :
    evaluateRouteRisk p = evaluateRouteRisk p ∧
      evaluateRouteRisk p = evaluateRouteRisk q := by
  refine ⟨rfl, ?_⟩
  unfold evaluateRouteRisk
  have hs : riskSum p = riskSum q := by
    induction h with
    | nil => rfl
    | cons hd tl ih => simp only [riskSum, tileRisk_congr hd, ih]
  rw [hs]

/-- Witness for C6 at a concrete path: the second path differs from the
first in movement cost and terrain but agrees on the risk-relevant
state. -/
theorem evaluateRouteRisk_idempotent_state_local_witness :
    evaluateRouteRisk [⟨0, 0, "plains", none, 1, [], [], none, none, none,
        none, none, none⟩] =
      evaluateRouteRisk [⟨0, 0, "mountain", none, 99, [], [], none, none,
        none, none, none, none⟩] :=
  (evaluateRouteRisk_idempotent_state_local _ _
    (List.Forall₂.cons ⟨rfl, rfl, rfl, rfl, rfl, rfl, rfl⟩
      List.Forall₂.nil)).2

/-! ## C9: duplicate suppression in the merge step -/

/-- C9.  Merging an additional supplementary link whose `(partner, path)`
pair already occurs in the settlement's merged link list does not increase
that settlement's link count: the per-settlement merge of STEP 5 skips
it. -/
theorem mergeLinksInto_no_growth_on_duplicate (cur links : List Link)
    (e : Link) (h : linkKey e ∈ cur.map linkKey) :
    (mergeLinksInto cur (links ++ [e])).length =
      (mergeLinksInto cur links).length := by
  simp only [mergeLinksInto, List.foldl_append, List.foldl_cons,
    List.foldl_nil, if_pos h]

/-- Witness for C9: a singleton base list and a duplicate extra. -/
theorem mergeLinksInto_no_growth_on_duplicate_witness :
    linkKey (⟨1, 0, 0, []⟩ : Link) ∈
        ([⟨1, 0, 0, []⟩] : List Link).map linkKey ∧
      (mergeLinksInto [⟨1, 0, 0, []⟩] ([] ++ [⟨1, 0, 0, []⟩])).length =
        (mergeLinksInto [⟨1, 0, 0, []⟩] []).length :=
  ⟨by simp, mergeLinksInto_no_growth_on_duplicate _ _ _ (by simp)⟩

/-! ## C4: the cached pairwise total cost -/

theorem distAux_cost {grid : List (List Tile)} {fuel : Nat} :
    ∀ (pairs : List ((Nat × Profile) × (Nat × Profile)))
      (acc dist : List ((Nat × Nat) × (List Tile × ℚ))),
      distAux grid fuel pairs acc = some (.ok dist) →
      (∀ e ∈ acc, e.2.2 = path_cost e.2.1) →
      ∀ e ∈ dist, e.2.2 = path_cost e.2.1 := by
  intro pairs
  induction pairs with
  | nil =>
      intro acc dist h hacc
      simp only [distAux, Option.some.injEq, Except.ok.injEq] at h
      exact h ▸ hacc
  | cons hd tl ih =>
      intro acc dist h hacc
      rcases hd with ⟨⟨sa, pa⟩, ⟨sb, pb⟩⟩
      rcases hr : findRoute grid pa.tile pb.tile fuel with _ | er
      · simp only [distAux, hr] at h
        exact absurd h (by simp)
      · rcases er with er | op
        · simp only [distAux, hr] at h
          exact absurd h (by simp)
        · rcases op with _ | path
          · simp only [distAux, hr] at h
            exact ih acc dist h hacc
          · simp only [distAux, hr] at h
            by_cases hp : path.isEmpty = true
            · rw [if_pos hp] at h
              exact ih acc dist h hacc
            · rw [if_neg hp] at h
              refine ih _ dist h ?_
              intro e he
              rcases aupsertP_mem he with rfl | he'
              · rfl
              · rcases aupsertP_mem he' with rfl | he''
                · rfl
                · exact hacc e he''

/-- C4 (amended).  For every settlement pair for which the route planner
returns a path during synthesis, the `totalCost` cached for the pair (and
used to rank the Kruskal candidate edges) equals the sum of `tile_cost`
over *all* tiles of the cached path — the source tile included, not
excluded. -/
theorem distCache_totalCost_full_path (grid : List (List Tile))
    (fuel : Nat) (profiles : List (Nat × Profile))
    (dist : List ((Nat × Nat) × (List Tile × ℚ)))
    (h : distAux grid fuel (allPairs profiles) [] = some (.ok dist)) :
    ∀ e ∈ dist, e.2.2 = path_cost e.2.1 :=
  distAux_cost (allPairs profiles) [] dist h (by simp)

/-! ## Backbone structure lemmas -/

theorem edgesOf_lt (dist : List ((Nat × Nat) × (List Tile × ℚ))) :
    ∀ e ∈ edgesOf dist, e.2.1 < e.2.2.1 := by
  induction dist with
  | nil => simp [edgesOf]
  | cons hd tl ih =>
      intro e he
      rcases hd with ⟨⟨k1, k2⟩, v⟩
      simp only [edgesOf, List.foldr_cons] at he
      by_cases hk : k1 < k2
      · rw [if_pos hk] at he
        rcases List.mem_cons.1 he with h | h
        · subst h; exact hk
        · exact ih e h
      · rw [if_neg hk] at he
        exact ih e he

theorem insEdge_mem {l : List EdgeT} {e x : EdgeT} (h : x ∈ insEdge e l) :
    x = e ∨ x ∈ l := by
  induction l with
  | nil => simpa [insEdge] using h
  | cons hd tl ih =>
      simp only [insEdge] at h
      by_cases hc : e.1 < hd.1
      · rw [if_pos hc] at h
        rcases List.mem_cons.1 h with h | h
        · exact .inl h
        · exact .inr h
      · rw [if_neg hc] at h
        rcases List.mem_cons.1 h with h | h
        · exact .inr (h ▸ List.mem_cons_self _ _)
        · rcases ih h with h | h
          · exact .inl h
          · exact .inr (List.mem_cons_of_mem _ h)

theorem sortEdges_mem_aux :
    ∀ (l acc : List EdgeT) (x : EdgeT),
      x ∈ l.foldl (fun acc e => insEdge e acc) acc → x ∈ acc ∨ x ∈ l := by
  intro l
  induction l with
  | nil => intro acc x h; exact .inl h
  | cons hd tl ih =>
      intro acc x h
      rcases ih (insEdge hd acc) x h with h | h
      · rcases insEdge_mem h with h | h
        · exact .inr (h ▸ List.mem_cons_self _ _)
        · exact .inl h
      · exact .inr (List.mem_cons_of_mem _ h)

theorem sortEdges_mem {l : List EdgeT} {x : EdgeT} (h : x ∈ sortEdges l) :
    x ∈ l := by
  rcases sortEdges_mem_aux l [] x h with h | h
  · cases h
  · exact h

theorem mem_get_entries {d : LinkDict Link} {sid : Nat} {l : Link}
    (hl : l ∈ d.get sid) : ∃ ls, (sid, ls) ∈ d.entries ∧ l ∈ ls := by
  unfold LinkDict.get at hl
  cases h : alookupN d.entries sid with
  | none => rw [h] at hl; cases hl
  | some ls => rw [h] at hl; exact ⟨ls, alookupN_mem h, hl⟩

/-- Backbone links survive the STEP 5 merge into the final graph. -/
theorem mem_merged_graph (mst : LinkDict Link)
    (es : List (Nat × List Link)) {sid : Nat} {l : Link}
    (hl : l ∈ mst.get sid) :
    l ∈ (mergeExtras es (copyMst mst.entries ⟨[]⟩)).get sid := by
  rcases mem_get_entries hl with ⟨ls, hls, hlin⟩
  have h1 : l ∈ (copyMst mst.entries (⟨[]⟩ : LinkDict Link)).get sid :=
    copyMst_mem mst.entries ⟨[]⟩ hls l hlin
  rcases mergeExtras_get_suffix es (copyMst mst.entries ⟨[]⟩) sid with
    ⟨suf, hs⟩
  rw [hs]
  exact List.mem_append_left _ h1

theorem MirrorIn.insert_pair (links : LinkDict Link) (sa sb : Nat)
    (v r : ℚ) (pth : List Tile) (hne : sa ≠ sb) (h : MirrorIn links) :
    MirrorIn ((links.append sa ⟨sb, v, r, pth⟩).append sb
      ⟨sa, v, r, pth⟩) := by
  set lab : Link := ⟨sb, v, r, pth⟩ with hlab
  set lba : Link := ⟨sa, v, r, pth⟩ with hlba
  set d2 := (links.append sa lab).append sb lba with hd2
  have hsub : ∀ k, ∀ x ∈ links.get k, x ∈ d2.get k := by
    intro k x hx
    rcases LinkDict.get_append_suffix links sa k lab with ⟨s1, h1⟩
    rcases LinkDict.get_append_suffix (links.append sa lab) sb k lba with
      ⟨s2, h2⟩
    rw [hd2, h2, h1]
    exact List.mem_append_left _ (List.mem_append_left _ hx)
  have hga : d2.get sa = links.get sa ++ [lab] := by
    rw [hd2, LinkDict.get_append_ne _ _ _ _ hne, LinkDict.get_append_self]
  have hgb : d2.get sb = links.get sb ++ [lba] := by
    rw [hd2, LinkDict.get_append_self,
      LinkDict.get_append_ne _ _ _ _ (Ne.symm hne)]
  intro sid l hl
  by_cases hsa : sid = sa
  · subst hsa
    rw [hga] at hl
    rcases List.mem_append.1 hl with hl | hl
    · rcases h _ _ hl with ⟨l2, hm1, hm2, hm3, hm4, hm5⟩
      exact ⟨l2, hsub _ _ hm1, hm2, hm3, hm4, hm5⟩
    · obtain rfl := List.mem_singleton.1 hl
      refine ⟨lba, ?_, rfl, rfl, rfl, rfl⟩
      rw [show lab.partner = sb from rfl, hgb]
      exact List.mem_append_right _ (List.mem_singleton.2 rfl)
  · by_cases hsb : sid = sb
    · subst hsb
      rw [hgb] at hl
      rcases List.mem_append.1 hl with hl | hl
      · rcases h _ _ hl with ⟨l2, hm1, hm2, hm3, hm4, hm5⟩
        exact ⟨l2, hsub _ _ hm1, hm2, hm3, hm4, hm5⟩
      · obtain rfl := List.mem_singleton.1 hl
        refine ⟨lab, ?_, rfl, rfl, rfl, rfl⟩
        rw [show lba.partner = sa from rfl, hga]
        exact List.mem_append_right _ (List.mem_singleton.2 rfl)
    · have heq : d2.get sid = links.get sid := by
        rw [hd2, LinkDict.get_append_ne _ _ _ _ hsb,
          LinkDict.get_append_ne _ _ _ _ hsa]
      rw [heq] at hl
      rcases h _ _ hl with ⟨l2, hm1, hm2, hm3, hm4, hm5⟩
      exact ⟨l2, hsub _ _ hm1, hm2, hm3, hm4, hm5⟩

theorem kruskalAux_mirror (profiles : List (Nat × Profile)) (n : Nat) :
    ∀ (edges : List EdgeT) (p : Nat → Nat) (links : LinkDict Link)
      (pOut : Nat → Nat) (out : LinkDict Link),
      (∀ e ∈ edges, e.2.1 ≠ e.2.2.1) → MirrorIn links →
      kruskalAux profiles n edges p links = .ok (pOut, out) →
      MirrorIn out := by
  intro edges
  induction edges with
  | nil =>
      intro p links pOut out _ hmir h
      simp only [kruskalAux, Except.ok.injEq, Prod.mk.injEq] at h
      exact h.2 ▸ hmir
  | cons hd tl ih =>
      intro p links pOut out hne hmir h
      rcases hd with ⟨c, sa, sb, pth⟩
      have hsasb : sa ≠ sb := hne _ (List.mem_cons_self _ _)
      rcases hu : unionFuel n p sa sb with ⟨p2, merged⟩
      simp only [kruskalAux, hu] at h
      cases merged with
      | false =>
          simp only [Bool.false_eq_true, if_false] at h
          exact ih p2 links pOut out
            (fun e he => hne e (List.mem_cons_of_mem _ he)) hmir h
      | true =>
          simp only [if_true] at h
          cases hpa : alookupN profiles sa with
          | none => rw [hpa] at h; cases hpb : alookupN profiles sb <;>
              rw [hpb] at h <;> cases h
          | some pa =>
              rw [hpa] at h
              cases hpb : alookupN profiles sb with
              | none => rw [hpb] at h; cases h
              | some pb =>
                  rw [hpb] at h
                  exact ih p2 _ pOut out
                    (fun e he => hne e (List.mem_cons_of_mem _ he))
                    (MirrorIn.insert_pair links sa sb _ _ pth hsasb hmir) h

theorem MirrorIn_empty : MirrorIn ⟨[]⟩ := by
  intro sid l hl
  simp [LinkDict.get, alookupN] at hl

/-- The Kruskal backbone dict is symmetric, with the same path stored on
both sides. -/
theorem mstOfProfiles_mirror {grid : List (List Tile)} {fuel : Nat}
    {profiles : List (Nat × Profile)} {mst : LinkDict Link}
    (hm : mstOfProfiles grid fuel profiles = some (.ok mst)) :
    MirrorIn mst := by
  unfold mstOfProfiles at hm
  cases hd : distAux grid fuel (allPairs profiles) [] with
  | none => rw [hd] at hm; cases hm
  | some er =>
      rw [hd] at hm
      cases er with
      | error e => cases hm
      | ok dist =>
          simp only at hm
          cases hk : kruskalAux profiles profiles.length
              (sortEdges (edgesOf dist)) (fun x => x) ⟨[]⟩ with
          | error e => rw [hk] at hm; cases hm
          | ok pr =>
              rw [hk] at hm
              rcases pr with ⟨pOut, out⟩
              simp only [Option.some.injEq, Except.ok.injEq] at hm
              subst hm
              exact kruskalAux_mirror profiles profiles.length _ _ _ _ _
                (fun e he =>
                  Nat.ne_of_lt (edgesOf_lt dist e (sortEdges_mem he)))
                MirrorIn_empty hk

/-- With at most one settlement the backbone is empty. -/
theorem mstOfProfiles_short (grid : List (List Tile)) (fuel : Nat)
    (profiles : List (Nat × Profile)) (hlen : profiles.length ≤ 1) :
    mstOfProfiles grid fuel profiles = some (.ok ⟨[]⟩) := by
  have h1 : allPairs profiles = [] := by
    rcases profiles with _ | ⟨p, _ | ⟨q, rest⟩⟩
    · rfl
    · simp [allPairs]
    · exact absurd hlen (by simp)
  simp only [mstOfProfiles, h1, distAux, edgesOf, List.foldr, sortEdges,
    List.foldl, kruskalAux]

/-- How the returned graph of `GenerateTradeRoutes` decomposes: empty on
the short-circuit, otherwise the backbone copied and merged with the
supplementary links. -/
theorem generateTradeRoutes_graph (w : World) (fuel : Nat)
    (profiles : List (Nat × Profile)) (g : LinkDict Link) (w2 : World)
    (hc : collectSettlementProfiles w = .ok profiles)
    (hg : generateTradeRoutes w fuel = some (.ok (g, w2))) :
    (profiles.length ≤ 1 ∧ g = ⟨[]⟩) ∨
      ∃ mst extras,
        mstOfProfiles w.grid fuel profiles = some (.ok mst) ∧
        (∃ partners, findTradePartners w profiles = .ok partners ∧
          extrasAux w.grid fuel profiles partners ⟨[]⟩ =
            some (.ok extras)) ∧
        g = mergeExtras extras.entries (copyMst mst.entries ⟨[]⟩) := by
  simp only [generateTradeRoutes, hc] at hg
  by_cases hlen : profiles.length ≤ 1
  · rw [if_pos hlen] at hg
    simp only [Option.some.injEq, Except.ok.injEq, Prod.mk.injEq] at hg
    exact .inl ⟨hlen, hg.1.symm⟩
  · rw [if_neg hlen] at hg
    cases hmst : mstOfProfiles w.grid fuel profiles with
    | none => simp only [hmst] at hg; exact absurd hg (by simp)
    | some er =>
        simp only [hmst] at hg
        cases er with
        | error e => simp at hg
        | ok mst =>
            cases hpart : findTradePartners w profiles with
            | error e => simp only [hpart] at hg; simp at hg
            | ok partners =>
                simp only [hpart] at hg
                cases hex : extrasAux w.grid fuel profiles partners ⟨[]⟩ with
                | none => simp only [hex] at hg; exact absurd hg (by simp)
                | some er2 =>
                    simp only [hex] at hg
                    cases er2 with
                    | error e => simp at hg
                    | ok extras =>
                        cases htag : tagSettlements w.grid profiles
                            (mergeExtras extras.entries
                              (copyMst mst.entries ⟨[]⟩)) with
                        | error e => simp only [htag] at hg; simp at hg
                        | ok grid2 =>
                            simp only [htag, Option.some.injEq,
                              Except.ok.injEq, Prod.mk.injEq] at hg
                            exact .inr ⟨mst, extras, rfl,
                              ⟨partners, rfl, hex⟩, hg.1.symm⟩

/-- C1 (amended).  Backbone symmetry holds with the *same* stored path on
both sides, not the reversed one: every backbone (MST) link of
`GenerateTradeRoutes` appears in the returned graph, and its partner's
link list in the returned graph holds a mirror link with `partner`
pointing back, the same value, the same risk, and the identical (not
reversed) path. -/
theorem backbone_symmetry_identical_path (w : World) (fuel : Nat)
    (profiles : List (Nat × Profile)) (mst g : LinkDict Link) (w2 : World)
    (hc : collectSettlementProfiles w = .ok profiles)
    (hm : mstOfProfiles w.grid fuel profiles = some (.ok mst))
    (hg : generateTradeRoutes w fuel = some (.ok (g, w2)))
    (sid : Nat) (l : Link) (hl : l ∈ mst.get sid) :
    l ∈ g.get sid ∧
      ∃ l2, l2 ∈ g.get l.partner ∧ l2.partner = sid ∧ l2.value = l.value ∧
        l2.risk = l.risk ∧ l2.path = l.path := by
  rcases generateTradeRoutes_graph w fuel profiles g w2 hc hg with
    ⟨hlen, hge⟩ | ⟨mst', extras, hm', _hpe, hgeq⟩
  · rw [mstOfProfiles_short w.grid fuel profiles hlen] at hm
    obtain rfl : (⟨[]⟩ : LinkDict Link) = mst :=
      Except.ok.inj (Option.some.inj hm)
    simp [LinkDict.get, alookupN] at hl
  · rw [hm'] at hm
    obtain rfl : mst' = mst := Except.ok.inj (Option.some.inj hm)
    subst hgeq
    have hmir := mstOfProfiles_mirror hm'
    rcases hmir sid l hl with ⟨l2, hm1, hm2, hm3, hm4, hm5⟩
    exact ⟨mem_merged_graph mst' extras.entries hl,
      ⟨l2, mem_merged_graph mst' extras.entries hm1, hm2, hm3, hm4, hm5⟩⟩

/-! ## Evaluation of the pipeline on the concrete two-settlement world -/

theorem profA_tile : profA.tile = tileA := rfl

theorem profB_tile : profB.tile = tileB := rfl

theorem collect_wPair :
    collectSettlementProfiles wPair = .ok [(1, profA), (2, profB)] := by
  simp only [collectSettlementProfiles, collectAux, wPair, tileA, tileB,
    econA, econB, profA, profB, profileOfEcon, exportsOf, importsOf,
    baseDemand, alookupS, aupsertN, List.foldr]
  norm_num
  simp

theorem ctv_AB : computeTradeValue profA profB = 15/2 := by
  simp only [computeTradeValue, profA, profB, sumMatched, alookupS]
  simp
  norm_num

theorem risk_pairPath : evaluateRouteRisk [tileA, tileB] = 0 := by
  simp only [evaluateRouteRisk, riskSum, tileRisk, tileA, tileB]
  simp
  norm_num

theorem pathCost_pair : path_cost [tileA, tileB] = 2 := by
  simp only [path_cost, tile_cost, tileA, tileB]
  norm_num

theorem findRoute_wPair :
    findRoute [[tileA, tileB]] tileA tileB 5 =
      some (.ok (some [tileA, tileB])) := by
  simp +decide [findRoute, loopA, heapPop, selMin, neighborsE, neighPairs,
    collectTiles, gridAt, relaxAll, alookupP, aupsertP, reconstruct,
    tile_cost, tileA, tileB, List.range', econA, econB]

theorem mst_wPair :
    mstOfProfiles [[tileA, tileB]] 5 [(1, profA), (2, profB)] =
      some (.ok gPair) := by
  simp +decide [mstOfProfiles, allPairs, distAux, profA_tile, profB_tile,
    findRoute_wPair, pathCost_pair, aupsertP, edgesOf, sortEdges, insEdge,
    kruskalAux, unionFuel, findFuel, alookupN, LinkDict.append,
    LinkDict.getCreate, aupsertN, ctv_AB, risk_pairPath, gPair, linkAB,
    linkBA]

theorem partners_wPair :
    findTradePartners wPair [(1, profA), (2, profB)] = .ok [] := by
  simp [findTradePartners, partnersAux, profA_tile, profB_tile,
    get_settlement_ai, tileA, tileB]

theorem tag_wPair :
    tagSettlements [[tileA, tileB]] [(1, profA), (2, profB)]
      ⟨[(1, [⟨2, 15/2, 0, [tileA, tileB]⟩]),
        (2, [⟨1, 15/2, 0, [tileA, tileB]⟩])]⟩ = .ok [[tileA1, tileB1]] := by
  simp +decide [tagSettlements, tagLoop1, tagLoop2, mapTileAt, addTag,
    removeDerived, derivedTags, LinkDict.get, alookupN, sumRisk,
    tilesWithinRadiusUtil, collectTiles, gridAt, isWildTerrain,
    get_settlement_ai, List.range', profA, profB, tileA, tileB, tileA1,
    tileB1, linkAB, linkBA, econA, econB]

theorem wPair_grid : wPair.grid = [[tileA, tileB]] := rfl

theorem wPair_econIndex : wPair.econIndex = [tileA, tileB] := rfl

theorem wPair_meta00 : wPair.meta00 = none := rfl

theorem generate_wPair :
    generateTradeRoutes wPair 5 = some (.ok (gPair, wPairTagged)) := by
  simp +decide [generateTradeRoutes, collect_wPair, mst_wPair,
    partners_wPair, extrasAux, mergeExtras, copyMst, LinkDict.extend,
    LinkDict.getCreate, alookupN, aupsertN, tag_wPair, gPair, linkAB,
    linkBA, wPair_grid, wPair_econIndex, wPair_meta00, wPairTagged]

/-! ## C1, C3, C4: counterexamples and witnesses; C3 value invariant -/

theorem insert_pair_get_cases (links : LinkDict Link) (sa sb : Nat)
    (x y : Link) (hne : sa ≠ sb) (sid : Nat) (l : Link)
    (hl : l ∈ ((links.append sa x).append sb y).get sid) :
    l ∈ links.get sid ∨ (sid = sa ∧ l = x) ∨ (sid = sb ∧ l = y) := by
  by_cases hsa : sid = sa
  · subst hsa
    rw [LinkDict.get_append_ne _ _ _ _ hne, LinkDict.get_append_self] at hl
    rcases List.mem_append.1 hl with h | h
    · exact .inl h
    · exact .inr (.inl ⟨rfl, List.mem_singleton.1 h⟩)
  · by_cases hsb : sid = sb
    · subst hsb
      rw [LinkDict.get_append_self,
        LinkDict.get_append_ne _ _ _ _ (Ne.symm hne)] at hl
      rcases List.mem_append.1 hl with h | h
      · exact .inl h
      · exact .inr (.inr ⟨rfl, List.mem_singleton.1 h⟩)
    · rw [LinkDict.get_append_ne _ _ _ _ hsb,
        LinkDict.get_append_ne _ _ _ _ hsa] at hl
      exact .inl hl

/-- The value stored on every Kruskal backbone link is exactly
`ComputeTradeValue` of the two endpoint profiles. -/
theorem kruskalAux_value (profiles : List (Nat × Profile)) (n : Nat) :
    ∀ (edges : List EdgeT) (p : Nat → Nat) (links : LinkDict Link)
      (pOut : Nat → Nat) (out : LinkDict Link),
      (∀ e ∈ edges, e.2.1 ≠ e.2.2.1) →
      (∀ sid l, l ∈ links.get sid →
        ∃ pa pb, alookupN profiles sid = some pa ∧
          alookupN profiles l.partner = some pb ∧
          l.value = computeTradeValue pa pb) →
      kruskalAux profiles n edges p links = .ok (pOut, out) →
      ∀ sid l, l ∈ out.get sid →
        ∃ pa pb, alookupN profiles sid = some pa ∧
          alookupN profiles l.partner = some pb ∧
          l.value = computeTradeValue pa pb := by
  intro edges
  induction edges with
  | nil =>
      intro p links pOut out _ hval h
      simp only [kruskalAux, Except.ok.injEq, Prod.mk.injEq] at h
      exact h.2 ▸ hval
  | cons hd tl ih =>
      intro p links pOut out hne hval h
      rcases hd with ⟨c, sa, sb, pth⟩
      have hsasb : sa ≠ sb := hne _ (List.mem_cons_self _ _)
      rcases hu : unionFuel n p sa sb with ⟨p2, merged⟩
      simp only [kruskalAux, hu] at h
      cases merged with
      | false =>
          simp only [Bool.false_eq_true, if_false] at h
          exact ih p2 links pOut out
            (fun e he => hne e (List.mem_cons_of_mem _ he)) hval h
      | true =>
          simp only [if_true] at h
          cases hpa : alookupN profiles sa with
          | none => rw [hpa] at h; cases hpb : alookupN profiles sb <;>
              rw [hpb] at h <;> cases h
          | some pa =>
              rw [hpa] at h
              cases hpb : alookupN profiles sb with
              | none => rw [hpb] at h; cases h
              | some pb =>
                  rw [hpb] at h
                  refine ih p2 _ pOut out
                    (fun e he => hne e (List.mem_cons_of_mem _ he)) ?_ h
                  intro sid l hl
                  rcases insert_pair_get_cases links sa sb _ _ hsasb sid l
                      hl with hl | ⟨rfl, rfl⟩ | ⟨rfl, rfl⟩
                  · exact hval sid l hl
                  · exact ⟨pa, pb, hpa, hpb, rfl⟩
                  · exact ⟨pb, pa, hpb, hpa, computeTradeValue_comm pa pb⟩

/-- C3 (amended).  The value stored on an MST (backbone) link is
`ComputeTradeValue` of the two endpoint profiles: the complement sum
`Σ exportsA∩importsB + Σ exportsB∩importsA` (full export magnitudes, not
the matcher's min-matched overlap), returned as `0` when non-positive and
otherwise *scaled by the wealth and supply factor*
`1/2 + (wealthA+wealthB)/200 + (suppliesA+suppliesB)/200` — the value is
not a function of the export/import maps alone. -/
theorem mst_link_value_formula (grid : List (List Tile)) (fuel : Nat)
    (profiles : List (Nat × Profile)) (mst : LinkDict Link)
    (hm : mstOfProfiles grid fuel profiles = some (.ok mst))
    (sid : Nat) (l : Link) (hl : l ∈ mst.get sid) :
    ∃ pa pb, alookupN profiles sid = some pa ∧
      alookupN profiles l.partner = some pb ∧
      l.value = computeTradeValue pa pb ∧
      l.value = (if specComplementValue pa pb ≤ 0 then 0
        else specComplementValue pa pb *
          (1/2 + (pa.wealth + pb.wealth) / 200 +
            (pa.supplies + pb.supplies) / 200)) := by
  unfold mstOfProfiles at hm
  cases hd : distAux grid fuel (allPairs profiles) [] with
  | none => rw [hd] at hm; cases hm
  | some er =>
      rw [hd] at hm
      cases er with
      | error e => cases hm
      | ok dist =>
          simp only at hm
          cases hk : kruskalAux profiles profiles.length
              (sortEdges (edgesOf dist)) (fun x => x) ⟨[]⟩ with
          | error e => rw [hk] at hm; cases hm
          | ok pr =>
              rw [hk] at hm
              rcases pr with ⟨pOut, out⟩
              simp only [Option.some.injEq, Except.ok.injEq] at hm
              subst hm
              rcases kruskalAux_value profiles profiles.length _ _ _ _ _
                  (fun e he =>
                    Nat.ne_of_lt (edgesOf_lt dist e (sortEdges_mem he)))
                  (fun sid l hl => by
                    simp [LinkDict.get, alookupN] at hl) hk sid l hl with
                ⟨pa, pb, h1, h2, h3⟩
              exact ⟨pa, pb, h1, h2, h3, h3⟩

/-- Witness for C3 (amended) at the concrete world. -/
theorem mst_link_value_formula_witness :
    ∃ pa pb, alookupN [(1, profA), (2, profB)] 1 = some pa ∧
      alookupN [(1, profA), (2, profB)] linkAB.partner = some pb ∧
      linkAB.value = computeTradeValue pa pb ∧
      linkAB.value = (if specComplementValue pa pb ≤ 0 then 0
        else specComplementValue pa pb *
          (1/2 + (pa.wealth + pb.wealth) / 200 +
            (pa.supplies + pb.supplies) / 200)) :=
  mst_link_value_formula [[tileA, tileB]] 5 [(1, profA), (2, profB)] gPair
    mst_wPair 1 linkAB (by simp [gPair, LinkDict.get, alookupN])

/-- C3 counterexample: in the returned graph of the concrete world the
stored backbone value is `15/2`, while the claim's complement-sum formula
gives `5` (and the matcher's min-matched variant gives `2`); moreover
changing wealth alone — with export/import maps untouched — changes the
computed value, so the value is not a function of the export/import maps
only. -/
theorem trade_value_not_pure_complement_cex :
    generateTradeRoutes wPair 5 = some (.ok (gPair, wPairTagged)) ∧
    gPair.get 1 = [linkAB] ∧
    linkAB.value = 15/2 ∧
    specComplementValue profA profB = 5 ∧
    specMinComplementValue profA profB = 2 ∧
    linkAB.value ≠ specComplementValue profA profB ∧
    linkAB.value ≠ specMinComplementValue profA profB ∧
    computeTradeValue { profA with wealth := 0 } profB = 5 ∧
    computeTradeValue { profA with wealth := 0 } profB ≠
      computeTradeValue profA profB := by
  refine ⟨generate_wPair, by simp [gPair, LinkDict.get, alookupN], rfl,
    ?_, ?_, ?_, ?_, ?_, ?_⟩
  · simp only [specComplementValue, sumMatched, profA, profB, alookupS]
    simp
    try norm_num
  · simp only [specMinComplementValue, sumMinMatch, profA, profB, alookupS]
    simp
    try norm_num
  · simp only [specComplementValue, sumMatched, profA, profB, alookupS,
      linkAB]
    simp
    try norm_num
  · simp only [specMinComplementValue, sumMinMatch, profA, profB, alookupS,
      linkAB]
    simp
    try norm_num
  · simp only [computeTradeValue, sumMatched, profA, profB, alookupS]
    simp
    try norm_num
  · rw [ctv_AB]
    simp only [computeTradeValue, sumMatched, profA, profB, alookupS]
    simp
    try norm_num

/-- C1 counterexample: on the concrete two-settlement world the two sides
of the backbone edge store the *same* path object; settlement `2`'s path
is not the reverse of settlement `1`'s. -/
theorem backbone_path_not_reversed_cex :
    generateTradeRoutes wPair 5 = some (.ok (gPair, wPairTagged)) ∧
    gPair.get 1 = [linkAB] ∧ gPair.get 2 = [linkBA] ∧
    linkAB.partner = 2 ∧ linkBA.partner = 1 ∧
    linkBA.value = linkAB.value ∧ linkBA.risk = linkAB.risk ∧
    linkBA.path = linkAB.path ∧
    linkBA.path ≠ linkAB.path.reverse := by
  refine ⟨generate_wPair, by simp [gPair, LinkDict.get, alookupN],
    by simp [gPair, LinkDict.get, alookupN], rfl, rfl, rfl, rfl, rfl, ?_⟩
  simp [linkAB, linkBA, tileA, tileB]

/-- Witness for C1 (amended) at the concrete world. -/
theorem backbone_symmetry_identical_path_witness :
    linkAB ∈ gPair.get 1 ∧
      ∃ l2, l2 ∈ gPair.get linkAB.partner ∧ l2.partner = 1 ∧
        l2.value = linkAB.value ∧ l2.risk = linkAB.risk ∧
        l2.path = linkAB.path :=
  backbone_symmetry_identical_path wPair 5 [(1, profA), (2, profB)] gPair
    gPair wPairTagged collect_wPair mst_wPair generate_wPair 1 linkAB
    (by simp [gPair, LinkDict.get, alookupN])

theorem dist_wPair :
    distAux [[tileA, tileB]] 5 (allPairs [(1, profA), (2, profB)]) [] =
      some (.ok [((1, 2), ([tileA, tileB], 2)),
        ((2, 1), ([tileA, tileB], 2))]) := by
  simp +decide [distAux, allPairs, profA_tile, profB_tile, findRoute_wPair,
    pathCost_pair, aupsertP]

/-- Witness for C4 (amended): the cached cost of the concrete pair equals
the full-path cost sum. -/
theorem distCache_totalCost_full_path_witness :
    (((1, 2), ([tileA, tileB], (2 : ℚ))) ∈
        [((1, 2), ([tileA, tileB], (2 : ℚ))),
          ((2, 1), ([tileA, tileB], (2 : ℚ)))]) ∧
      (2 : ℚ) = path_cost [tileA, tileB] :=
  ⟨by simp, distCache_totalCost_full_path [[tileA, tileB]] 5
    [(1, profA), (2, profB)] _ dist_wPair
    ((1, 2), ([tileA, tileB], (2 : ℚ))) (by simp)⟩

/-- C4 counterexample: the cached total cost of the concrete pair is `2`,
the full-path sum including the source tile, whereas the claim's
source-excluding sum is `1`. -/
theorem path_cost_excludes_source_cex :
    distAux [[tileA, tileB]] 5 (allPairs [(1, profA), (2, profB)]) [] =
      some (.ok [((1, 2), ([tileA, tileB], 2)),
        ((2, 1), ([tileA, tileB], 2))]) ∧
    path_cost [tileA, tileB] = 2 ∧
    specExcludeSourceCost [tileA, tileB] = 1 ∧
    ((2 : ℚ)) ≠ specExcludeSourceCost [tileA, tileB] := by
  refine ⟨dist_wPair, pathCost_pair, ?_, ?_⟩
  · simp only [specExcludeSourceCost, List.drop, path_cost, tile_cost,
      tileB]
    norm_num
  · simp only [specExcludeSourceCost, List.drop, path_cost, tile_cost,
      tileB]
    norm_num

/-! ## C5: stale-storage behaviour of the per-tick functions -/

/-- C5 (amended).  When the well-known storage slot holds no trade links:
`UpdateTradeRouteRisks` is a silent no-op both when the `trade_links` key
is absent and when the stored dict is empty; `ApplyTradeEffects` is a
silent no-op when the stored dict is empty — but (see the counterexample)
it raises a `KeyError` when the key is absent, so only this weaker form
holds. -/
theorem stale_storage_noop (w : World) (t00 : Tile) (m : MetaSys Link)
    (hg0 : gridAt w.grid 0 0 = .ok t00) (hm : w.meta00 = some m) :
    ((m.trade_links = none ∨ m.trade_links = some ⟨[]⟩) →
      updateTradeRouteRisks w = .ok w) ∧
    (∀ powf sqrtf, m.trade_links = some ⟨[]⟩ →
      applyTradeEffects powf sqrtf w = .ok w) := by
  constructor
  · intro h
    rcases h with h | h <;>
      simp [updateTradeRouteRisks, hg0, hm, h]
  · intro powf sqrtf h
    simp [applyTradeEffects, hg0, hm, h, applyLinks]

/-- C5 counterexample: with the meta dict present but the `trade_links`
key absent, `ApplyTradeEffects` raises a `KeyError` instead of silently
returning (while `UpdateTradeRouteRisks` does return silently) — the
claim's "each call is a silent no-op" is false for `ApplyTradeEffects`. -/
theorem apply_effects_raises_on_missing_storage_cex :
    applyTradeEffects (fun x _ => x) (fun x => x) wNoKey =
        .error .keyError ∧
      updateTradeRouteRisks wNoKey = .ok wNoKey := by
  constructor <;>
    simp [applyTradeEffects, updateTradeRouteRisks, wNoKey, gridAt]

/-- Witness for C5 (amended) on a world with an empty stored graph. -/
theorem stale_storage_noop_witness :
    updateTradeRouteRisks wEmptyDict = .ok wEmptyDict ∧
      applyTradeEffects (fun x _ => x) (fun x => x) wEmptyDict =
        .ok wEmptyDict :=
  ⟨(stale_storage_noop wEmptyDict tileM ⟨some ⟨[]⟩⟩
      (by simp [wEmptyDict, gridAt]) rfl).1 (.inr rfl),
    (stale_storage_noop wEmptyDict tileM ⟨some ⟨[]⟩⟩
      (by simp [wEmptyDict, gridAt]) rfl).2 _ _ rfl⟩

/-! ## C10: the risk refresh as a frame-preserving rewrite -/

theorem alookupN_append_fresh {α : Type} (base : List (Nat × α)) (k : Nat)
    (v : α) (hf : alookupN base k = none) :
    alookupN (base ++ [(k, v)]) k = some v := by
  rw [alookupN_append, hf]
  simp [alookupN]

theorem aupsertN_append_fresh {α : Type} (base : List (Nat × α))
    (k : Nat) (v w : α) (hf : alookupN base k = none) :
    aupsertN (base ++ [(k, v)]) k w = base ++ [(k, w)] := by
  induction base with
  | nil => simp [aupsertN]
  | cons hd tl ih =>
      rcases hd with ⟨k', v'⟩
      simp only [alookupN] at hf
      by_cases hk : k' = k
      · rw [if_pos hk] at hf; cases hf
      · rw [if_neg hk] at hf
        simp only [List.cons_append, aupsertN, if_neg hk, List.append_eq,
          ih hf]

/-- The inner refresh fold over one settlement's links, on a dict whose
last entry is that settlement's (fresh elsewhere). -/
theorem refresh_fold_at_tail (sid : Nat) :
    ∀ (links : List Link) (base : List (Nat × List Link))
      (cur : List Link), alookupN base sid = none →
      (links.foldl
        (fun dd l => dd.append sid
          { l with risk := evaluateRouteRisk l.path })
        ⟨base ++ [(sid, cur)]⟩ : LinkDict Link) =
      ⟨base ++ [(sid, cur ++ links.map
        (fun l => { l with risk := evaluateRouteRisk l.path }))]⟩ := by
  intro links
  induction links with
  | nil => intro base cur _; simp
  | cons l ls ih =>
      intro base cur hf
      simp only [List.foldl_cons]
      have hstep : ((⟨base ++ [(sid, cur)]⟩ : LinkDict Link).append sid
          { l with risk := evaluateRouteRisk l.path }) =
          ⟨base ++ [(sid, cur ++
            [{ l with risk := evaluateRouteRisk l.path }])]⟩ := by
        unfold LinkDict.append LinkDict.getCreate
        rw [alookupN_append_fresh base sid cur hf]
        simp only
        rw [aupsertN_append_fresh base sid cur _ hf]
      rw [hstep, ih base _ hf]
      simp

/-- The refresh loop rebuilds the dict entrywise: with no duplicate
settlement keys and every settlement holding at least one link, the
result maps each entry to the same entry with only the risks replaced. -/
theorem refreshLinks_eq :
    ∀ (es : List (Nat × List Link)) (d : LinkDict Link),
      ((es.map Prod.fst).Nodup) →
      (∀ p ∈ es, p.2 ≠ []) →
      (∀ p ∈ es, alookupN d.entries p.1 = none) →
      refreshLinks es d = ⟨d.entries ++ es.map
        (fun p => (p.1, p.2.map
          (fun l => { l with risk := evaluateRouteRisk l.path })))⟩ := by
  intro es
  induction es with
  | nil => intro d _ _ _; simp [refreshLinks]
  | cons hd tl ih =>
      intro d hnodup hne hfresh
      rcases hd with ⟨sid, links⟩
      rcases links with _ | ⟨l, ls⟩
      · exact absurd rfl (hne _ (List.mem_cons_self _ _))
      · simp only [refreshLinks, List.foldl_cons]
        have hf : alookupN d.entries sid = none :=
          hfresh _ (List.mem_cons_self _ _)
        rw [List.map_cons] at hnodup
        have hnotin : sid ∉ tl.map Prod.fst := (List.nodup_cons.1 hnodup).1
        have hnd2 : (tl.map Prod.fst).Nodup := (List.nodup_cons.1 hnodup).2
        have hstep : ((d.append sid
            { l with risk := evaluateRouteRisk l.path }) : LinkDict Link) =
            ⟨d.entries ++ [(sid,
              [{ l with risk := evaluateRouteRisk l.path }])]⟩ := by
          unfold LinkDict.append LinkDict.getCreate
          rw [hf]
          simp only
          rw [aupsertN_append_fresh d.entries sid _ _ hf]
          simp
        rw [hstep, refresh_fold_at_tail sid ls d.entries _ hf]
        rw [ih _ ?_ ?_ ?_]
        · simp
        · exact hnd2
        · exact fun p hp => hne p (List.mem_cons_of_mem _ hp)
        · intro p hp
          rw [alookupN_append]
          rw [hfresh p (List.mem_cons_of_mem _ hp)]
          have hps : p.1 ≠ sid := by
            intro he
            exact hnotin (he ▸ List.mem_map_of_mem Prod.fst hp)
          simp only [alookupN]
          rw [if_neg fun he => hps he.symm]

/-- C10 (amended).  Provided every settlement key in the stored graph has
at least one link (and keys are unique, as for a Python dict),
`UpdateTradeRouteRisks` rewrites the stored graph entrywise, replacing
only each link's risk with the re-evaluated one: the key set, per-key
link counts, and every link's partner, value and path are preserved, and
nothing else in the world changes.  (With an empty-link-list key the key
is dropped — see the counterexample.) -/
theorem update_risks_frame (w : World) (m : MetaSys Link)
    (g : LinkDict Link) (t00 : Tile)
    (hg0 : gridAt w.grid 0 0 = .ok t00) (hm : w.meta00 = some m)
    (htl : m.trade_links = some g)
    (hnodup : (g.entries.map Prod.fst).Nodup)
    (hne : ∀ p ∈ g.entries, p.2 ≠ []) :
    updateTradeRouteRisks w = .ok { w with meta00 := some ⟨some
      ⟨g.entries.map (fun p => (p.1, p.2.map
        (fun l => { l with risk := evaluateRouteRisk l.path })))⟩⟩ } := by
  rcases g with ⟨ges⟩
  simp only [updateTradeRouteRisks, hg0, hm, htl]
  cases ges with
  | nil =>
      rw [if_pos rfl]
      simp only [List.map_nil]
      congr 1
      rcases w with ⟨wg, wi, wm⟩
      simp only at hm ⊢
      rw [hm]
      rcases m with ⟨tls⟩
      simp only at htl
      rw [htl]
  | cons e es =>
      rw [if_neg (by simp)]
      rw [refreshLinks_eq (e :: es) ⟨[]⟩ hnodup hne (fun p _ => rfl)]
      simp

/-- C10 counterexample: a stored graph with a settlement key holding an
empty link list loses that key on refresh — the set of settlement keys is
not preserved. -/
theorem update_risks_drops_empty_key_cex :
    updateTradeRouteRisks wEmptyLinks = .ok wEmptyDict ∧
      wEmptyLinks.meta00 = some ⟨some ⟨[(7, [])]⟩⟩ ∧
      wEmptyDict.meta00 = some ⟨some ⟨[]⟩⟩ ∧
      ([(7, ([] : List Link))].map Prod.fst ≠
        ([] : List (Nat × List Link)).map Prod.fst) := by
  refine ⟨?_, rfl, rfl, by simp⟩
  simp [updateTradeRouteRisks, wEmptyLinks, wEmptyDict, gridAt,
    refreshLinks]

/-- Witness for C10 (amended) on a one-link world. -/
theorem update_risks_frame_witness :
    updateTradeRouteRisks wOneLink =
      .ok { wOneLink with
            meta00 := some ⟨some ⟨[(7, [⟨9, 1, 0, [tileM]⟩])]⟩⟩ } := by
  have h := update_risks_frame wOneLink ⟨some ⟨[(7, [⟨9, 1, 5, [tileM]⟩])]⟩⟩
    ⟨[(7, [⟨9, 1, 5, [tileM]⟩])]⟩ tileM (by simp [wOneLink, gridAt]) rfl
    rfl (by simp) (by simp)
  rw [h]
  simp only [List.map_cons, List.map_nil]
  have hr : evaluateRouteRisk [tileM] = 0 := by
    simp only [evaluateRouteRisk, riskSum, tileRisk, tileM]
    simp
    norm_num
  rw [hr]

/-! ## C7: non-negativity of generated links -/

theorem aupsertN_mem {α : Type} {l : List (Nat × α)} {k : Nat} {v : α}
    {x : Nat × α} (h : x ∈ aupsertN l k v) : x = (k, v) ∨ x ∈ l := by
  induction l with
  | nil => simpa [aupsertN] using h
  | cons hd tl ih =>
      rcases hd with ⟨k', v'⟩
      by_cases hk : k' = k
      · simp only [aupsertN, if_pos hk, List.mem_cons] at h
        rcases h with h | h
        · exact .inl h
        · exact .inr (List.mem_cons_of_mem _ h)
      · simp only [aupsertN, if_neg hk, List.mem_cons] at h
        rcases h with h | h
        · exact .inr (h ▸ List.mem_cons_self _ _)
        · rcases ih h with h' | h'
          · exact .inl h'
          · exact .inr (List.mem_cons_of_mem _ h')

theorem nonnegLinks_get {d : LinkDict Link} (h : NonnegLinks d)
    {sid : Nat} {l : Link} (hl : l ∈ d.get sid) :
    0 ≤ l.value ∧ 0 ≤ l.risk := by
  rcases mem_get_entries hl with ⟨ls, h1, h2⟩
  exact h _ h1 _ h2

theorem nonnegLinks_empty : NonnegLinks ⟨[]⟩ := by
  intro p hp
  cases hp

theorem nonnegLinks_append {d : LinkDict Link} {k : Nat} {x : Link}
    (h : NonnegLinks d) (hx : 0 ≤ x.value ∧ 0 ≤ x.risk) :
    NonnegLinks (d.append k x) := by
  intro p hp l hl
  unfold LinkDict.append at hp
  rcases aupsertN_mem hp with hp | hp
  · subst hp
    rcases List.mem_append.1 hl with hl | hl
    · rw [LinkDict.get_getCreate_fst] at hl
      exact nonnegLinks_get h hl
    · obtain rfl := List.mem_singleton.1 hl
      exact hx
  · unfold LinkDict.getCreate at hp
    cases hc : alookupN d.entries k with
    | some ls => rw [hc] at hp; exact h p hp l hl
    | none =>
        rw [hc] at hp
        simp only at hp
        rcases List.mem_append.1 hp with hp | hp
        · exact h p hp l hl
        · obtain rfl := List.mem_singleton.1 hp
          cases hl
  -- the created key holds an empty list, so its links case is vacuous

theorem nonnegLinks_extend {d : LinkDict Link} {k : Nat} {xs : List Link}
    (h : NonnegLinks d) (hx : ∀ l ∈ xs, 0 ≤ l.value ∧ 0 ≤ l.risk) :
    NonnegLinks (d.extend k xs) := by
  intro p hp l hl
  unfold LinkDict.extend at hp
  rcases aupsertN_mem hp with hp | hp
  · subst hp
    rcases List.mem_append.1 hl with hl | hl
    · rw [LinkDict.get_getCreate_fst] at hl
      exact nonnegLinks_get h hl
    · exact hx l hl
  · unfold LinkDict.getCreate at hp
    cases hc : alookupN d.entries k with
    | some ls => rw [hc] at hp; exact h p hp l hl
    | none =>
        rw [hc] at hp
        simp only at hp
        rcases List.mem_append.1 hp with hp | hp
        · exact h p hp l hl
        · obtain rfl := List.mem_singleton.1 hp
          cases hl

theorem mergeLinksInto_mem_aux :
    ∀ (links acc : List Link) (ex : List (Nat × LinkPath)) (l : Link),
      l ∈ links.foldl
        (fun acc x => if linkKey x ∈ ex then acc else acc ++ [x]) acc →
      l ∈ acc ∨ l ∈ links := by
  intro links
  induction links with
  | nil => intro acc ex l h; exact .inl h
  | cons hd tl ih =>
      intro acc ex l h
      simp only [List.foldl_cons] at h
      by_cases hc : linkKey hd ∈ ex
      · rw [if_pos hc] at h
        rcases ih acc ex l h with h | h
        · exact .inl h
        · exact .inr (List.mem_cons_of_mem _ h)
      · rw [if_neg hc] at h
        rcases ih (acc ++ [hd]) ex l h with h | h
        · rcases List.mem_append.1 h with h | h
          · exact .inl h
          · exact .inr ((List.mem_singleton.1 h) ▸ List.mem_cons_self _ _)
        · exact .inr (List.mem_cons_of_mem _ h)

theorem mergeLinksInto_mem {cur links : List Link} {l : Link}
    (h : l ∈ mergeLinksInto cur links) : l ∈ cur ∨ l ∈ links :=
  mergeLinksInto_mem_aux links cur (cur.map linkKey) l h

theorem evaluateRouteRisk_nonneg (p : List Tile) :
    0 ≤ evaluateRouteRisk p :=
  le_max_right _ _

theorem computeTradeValue_nonneg (pa pb : Profile) (h1 : 0 ≤ pa.wealth)
    (h2 : 0 ≤ pa.supplies) (h3 : 0 ≤ pb.wealth) (h4 : 0 ≤ pb.supplies) :
    0 ≤ computeTradeValue pa pb := by
  simp only [computeTradeValue]
  by_cases hb : sumMatched pa.exports pb.imports +
      sumMatched pb.exports pa.imports ≤ 0
  · rw [if_pos hb]
  · rw [if_neg hb]
    push_neg at hb
    have hw : (0:ℚ) ≤ (pa.wealth + pb.wealth) / 200 :=
      div_nonneg (add_nonneg h1 h3) (by norm_num)
    have hs : (0:ℚ) ≤ (pa.supplies + pb.supplies) / 200 :=
      div_nonneg (add_nonneg h2 h4) (by norm_num)
    have hm : (0:ℚ) ≤ 1/2 + (pa.wealth + pb.wealth) / 200 +
        (pa.supplies + pb.supplies) / 200 := by linarith
    exact mul_nonneg (le_of_lt hb) hm

theorem collectAux_nonneg :
    ∀ (tiles : List Tile) (acc out : List (Nat × Profile)),
      (∀ t ∈ tiles, ∀ e, t.economy = some e →
        0 ≤ e.wealth ∧ 0 ≤ e.supplies) →
      (∀ pr ∈ acc, 0 ≤ pr.2.wealth ∧ 0 ≤ pr.2.supplies) →
      collectAux tiles acc = .ok out →
      ∀ pr ∈ out, 0 ≤ pr.2.wealth ∧ 0 ≤ pr.2.supplies := by
  intro tiles
  induction tiles with
  | nil =>
      intro acc out _ hacc h
      simp only [collectAux, Except.ok.injEq] at h
      exact h ▸ hacc
  | cons t r ih =>
      intro acc out htiles hacc h
      simp only [collectAux] at h
      cases he : t.economy with
      | none => rw [he] at h; cases h
      | some e =>
          rw [he] at h
          refine ih _ out
            (fun t' ht' => htiles t' (List.mem_cons_of_mem _ ht')) ?_ h
          intro pr hpr
          rcases aupsertN_mem hpr with hpr | hpr
          · subst hpr
            exact htiles t (List.mem_cons_self _ _) e he
          · exact hacc pr hpr

theorem kruskalAux_nonneg (profiles : List (Nat × Profile)) (n : Nat)
    (hprof : ∀ sid pa, alookupN profiles sid = some pa →
      0 ≤ pa.wealth ∧ 0 ≤ pa.supplies) :
    ∀ (edges : List EdgeT) (p : Nat → Nat) (links : LinkDict Link)
      (pOut : Nat → Nat) (out : LinkDict Link),
      NonnegLinks links →
      kruskalAux profiles n edges p links = .ok (pOut, out) →
      NonnegLinks out := by
  intro edges
  induction edges with
  | nil =>
      intro p links pOut out hval h
      simp only [kruskalAux, Except.ok.injEq, Prod.mk.injEq] at h
      exact h.2 ▸ hval
  | cons hd tl ih =>
      intro p links pOut out hval h
      rcases hd with ⟨c, sa, sb, pth⟩
      rcases hu : unionFuel n p sa sb with ⟨p2, merged⟩
      simp only [kruskalAux, hu] at h
      cases merged with
      | false =>
          simp only [Bool.false_eq_true, if_false] at h
          exact ih p2 links pOut out hval h
      | true =>
          simp only [if_true] at h
          cases hpa : alookupN profiles sa with
          | none => rw [hpa] at h; cases hpb : alookupN profiles sb <;>
              rw [hpb] at h <;> cases h
          | some pa =>
              rw [hpa] at h
              cases hpb : alookupN profiles sb with
              | none => rw [hpb] at h; cases h
              | some pb =>
                  rw [hpb] at h
                  have hva := hprof sa pa hpa
                  have hvb := hprof sb pb hpb
                  have hv : 0 ≤ computeTradeValue pa pb :=
                    computeTradeValue_nonneg pa pb hva.1 hva.2 hvb.1 hvb.2
                  refine ih p2 _ pOut out ?_ h
                  exact nonnegLinks_append
                    (nonnegLinks_append hval
                      ⟨hv, evaluateRouteRisk_nonneg pth⟩)
                    ⟨hv, evaluateRouteRisk_nonneg pth⟩

theorem extrasInner_nonneg (grid : List (List Tile)) (fuel : Nat)
    (profiles : List (Nat × Profile)) (sid : Nat) (A : Profile) :
    ∀ (plist : List Nat) (acc out : LinkDict Link),
      NonnegLinks acc →
      extrasInner grid fuel profiles sid A plist acc = some (.ok out) →
      NonnegLinks out := by
  intro plist
  induction plist with
  | nil =>
      intro acc out hacc h
      simp only [extrasInner, Option.some.injEq, Except.ok.injEq] at h
      exact h ▸ hacc
  | cons osid rest ih =>
      intro acc out hacc h
      cases hB : alookupN profiles osid with
      | none => simp only [extrasInner, hB] at h; exact absurd h (by simp)
      | some B =>
          simp only [extrasInner, hB] at h
          by_cases hv : computeTradeValue A B ≤ 0
          · rw [if_pos hv] at h
            exact ih acc out hacc h
          · rw [if_neg hv] at h
            cases hr : findRoute grid A.tile B.tile fuel with
            | none => rw [hr] at h; cases h
            | some er =>
                rw [hr] at h
                cases er with
                | error e => simp at h
                | ok op =>
                    cases op with
                    | none => exact ih acc out hacc h
                    | some path =>
                        simp only at h
                        by_cases hp : path.isEmpty = true
                        · rw [if_pos hp] at h
                          exact ih acc out hacc h
                        · rw [if_neg hp] at h
                          push_neg at hv
                          exact ih _ out
                            (nonnegLinks_append hacc
                              ⟨le_of_lt hv, evaluateRouteRisk_nonneg path⟩)
                            h

theorem extrasAux_nonneg (grid : List (List Tile)) (fuel : Nat)
    (profiles : List (Nat × Profile)) :
    ∀ (partners : List (Nat × List Nat)) (acc out : LinkDict Link),
      NonnegLinks acc →
      extrasAux grid fuel profiles partners acc = some (.ok out) →
      NonnegLinks out := by
  intro partners
  induction partners with
  | nil =>
      intro acc out hacc h
      simp only [extrasAux, Option.some.injEq, Except.ok.injEq] at h
      exact h ▸ hacc
  | cons hd tl ih =>
      intro acc out hacc h
      rcases hd with ⟨sid, plist⟩
      cases hA : alookupN profiles sid with
      | none => simp only [extrasAux, hA] at h; exact absurd h (by simp)
      | some A =>
          simp only [extrasAux, hA] at h
          cases hin : extrasInner grid fuel profiles sid A plist acc with
          | none => rw [hin] at h; cases h
          | some er =>
              rw [hin] at h
              cases er with
              | error e => simp at h
              | ok acc2 =>
                  exact ih acc2 out
                    (extrasInner_nonneg grid fuel profiles sid A plist acc
                      acc2 hacc hin) h

theorem copyMst_nonneg :
    ∀ (es : List (Nat × List Link)) (d : LinkDict Link),
      NonnegLinks d →
      (∀ p ∈ es, ∀ l ∈ p.2, 0 ≤ l.value ∧ 0 ≤ l.risk) →
      NonnegLinks (copyMst es d) := by
  intro es
  induction es with
  | nil => intro d hd _; simpa [copyMst] using hd
  | cons hd tl ih =>
      intro d hdN hes
      rcases hd with ⟨sid, links⟩
      simp only [copyMst]
      exact ih _
        (nonnegLinks_extend hdN (hes _ (List.mem_cons_self _ _)))
        (fun p hp => hes p (List.mem_cons_of_mem _ hp))

theorem mergeExtras_nonneg :
    ∀ (es : List (Nat × List Link)) (d : LinkDict Link),
      NonnegLinks d →
      (∀ p ∈ es, ∀ l ∈ p.2, 0 ≤ l.value ∧ 0 ≤ l.risk) →
      NonnegLinks (mergeExtras es d) := by
  intro es
  induction es with
  | nil => intro d hd _; simpa [mergeExtras] using hd
  | cons hd tl ih =>
      intro d hdN hes
      rcases hd with ⟨sid, links⟩
      simp only [mergeExtras]
      rw [show (d.getCreate sid) =
        ((d.getCreate sid).1, (d.getCreate sid).2) from rfl]
      simp only
      refine ih _ ?_ (fun p hp => hes p (List.mem_cons_of_mem _ hp))
      intro p hp l hl
      rcases aupsertN_mem hp with hp | hp
      · subst hp
        rcases mergeLinksInto_mem hl with hl | hl
        · rw [LinkDict.get_getCreate_fst] at hl
          exact nonnegLinks_get hdN hl
        · exact hes _ (List.mem_cons_self _ _) l hl
      · unfold LinkDict.getCreate at hp
        cases hc : alookupN d.entries sid with
        | some ls => rw [hc] at hp; exact hdN p hp l hl
        | none =>
            rw [hc] at hp
            simp only at hp
            rcases List.mem_append.1 hp with hp | hp
            · exact hdN p hp l hl
            · obtain rfl := List.mem_singleton.1 hp
              cases hl

theorem mstOfProfiles_nonneg {grid : List (List Tile)} {fuel : Nat}
    {profiles : List (Nat × Profile)} {mst : LinkDict Link}
    (hm : mstOfProfiles grid fuel profiles = some (.ok mst))
    (hprof : ∀ sid pa, alookupN profiles sid = some pa →
      0 ≤ pa.wealth ∧ 0 ≤ pa.supplies) :
    NonnegLinks mst := by
  unfold mstOfProfiles at hm
  cases hd : distAux grid fuel (allPairs profiles) [] with
  | none => rw [hd] at hm; cases hm
  | some er =>
      rw [hd] at hm
      cases er with
      | error e => cases hm
      | ok dist =>
          simp only at hm
          cases hk : kruskalAux profiles profiles.length
              (sortEdges (edgesOf dist)) (fun x => x) ⟨[]⟩ with
          | error e => rw [hk] at hm; cases hm
          | ok pr =>
              rw [hk] at hm
              rcases pr with ⟨pOut, out⟩
              simp only [Option.some.injEq, Except.ok.injEq] at hm
              subst hm
              exact kruskalAux_nonneg profiles profiles.length hprof _ _ _
                _ _ nonnegLinks_empty hk

theorem generate_ok_collect {w : World} {fuel : Nat} {g : LinkDict Link}
    {w2 : World} (hg : generateTradeRoutes w fuel = some (.ok (g, w2))) :
    ∃ profiles, collectSettlementProfiles w = .ok profiles := by
  cases hc : collectSettlementProfiles w with
  | error e =>
      simp only [generateTradeRoutes, hc] at hg
      exact absurd hg (by simp)
  | ok profiles => exact ⟨profiles, rfl⟩

/-- C7.  Every trade link in the graph returned by `GenerateTradeRoutes`
satisfies `0 ≤ value` and `0 ≤ risk`, given non-negative wealth and
supplies on the settlement economies: risks are floored at `0`, a
non-positive complement base yields value `0`, and supplementary links
pass a `value > 0` guard. -/
theorem generateTradeRoutes_nonneg (w : World) (fuel : Nat)
    (g : LinkDict Link) (w2 : World)
    (hw : ∀ t ∈ w.econIndex, ∀ e, t.economy = some e →
      0 ≤ e.wealth ∧ 0 ≤ e.supplies)
    (hg : generateTradeRoutes w fuel = some (.ok (g, w2))) :
    ∀ sid l, l ∈ g.get sid → 0 ≤ l.value ∧ 0 ≤ l.risk := by
  obtain ⟨profiles, hc⟩ := generate_ok_collect hg
  have hprof : ∀ pr ∈ profiles, 0 ≤ pr.2.wealth ∧ 0 ≤ pr.2.supplies :=
    collectAux_nonneg w.econIndex [] profiles hw (by simp) hc
  have hlook : ∀ sid pa, alookupN profiles sid = some pa →
      0 ≤ pa.wealth ∧ 0 ≤ pa.supplies :=
    fun sid pa h => hprof (sid, pa) (alookupN_mem h)
  rcases generateTradeRoutes_graph w fuel profiles g w2 hc hg with
    ⟨_, hge⟩ | ⟨mst, extras, hm, ⟨partners, _hp, hex⟩, hgeq⟩
  · subst hge
    intro sid l hl
    simp [LinkDict.get, alookupN] at hl
  · subst hgeq
    have hmstN : NonnegLinks mst := mstOfProfiles_nonneg hm hlook
    have hexN : NonnegLinks extras :=
      extrasAux_nonneg w.grid fuel profiles partners ⟨[]⟩ extras
        nonnegLinks_empty hex
    have hcopy : NonnegLinks (copyMst mst.entries ⟨[]⟩) :=
      copyMst_nonneg mst.entries ⟨[]⟩ nonnegLinks_empty hmstN
    have hout : NonnegLinks
        (mergeExtras extras.entries (copyMst mst.entries ⟨[]⟩)) :=
      mergeExtras_nonneg extras.entries _ hcopy hexN
    intro sid l hl
    exact nonnegLinks_get hout hl

/-- Witness for C7 at the concrete world. -/
theorem generateTradeRoutes_nonneg_witness :
    0 ≤ linkAB.value ∧ 0 ≤ linkAB.risk :=
  generateTradeRoutes_nonneg wPair 5 gPair wPairTagged
    (by
      intro t ht e he
      simp only [wPair, List.mem_cons, List.not_mem_nil, or_false] at ht
      rcases ht with rfl | rfl
      · obtain rfl : econA = e := Option.some.inj he
        exact ⟨by norm_num [econA], by norm_num [econA]⟩
      · obtain rfl : econB = e := Option.some.inj he
        exact ⟨by norm_num [econB], by norm_num [econB]⟩)
    generate_wPair 1 linkAB (by simp [gPair, LinkDict.get, alookupN])

/-! ## C8: the route planner never raises -/

theorem gridAt_total {grid : List (List Tile)} {r0 : List Tile}
    {rest : List (List Tile)} (hg : grid = r0 :: rest)
    (hrect : RectGrid grid) {ny nx : Nat} (hy : ny < grid.length)
    (hx : nx < r0.length) : ∃ t, gridAt grid ny nx = .ok t := by
  have h1 : grid[ny]? = some grid[ny] := List.getElem?_eq_getElem hy
  have hmem : grid[ny] ∈ grid := List.getElem_mem hy
  have hlen : grid[ny].length = r0.length := by
    have h0 := hrect _ hmem
    have hh : grid.headD [] = r0 := by rw [hg]; rfl
    rw [hh] at h0
    exact h0
  have hx' : nx < grid[ny].length := hlen ▸ hx
  have h2 : grid[ny][nx]? = some grid[ny][nx] := List.getElem?_eq_getElem hx'
  exact ⟨grid[ny][nx], by simp [gridAt, h1, h2]⟩

theorem neighPairs_bounds {H W y x ny nx : Nat}
    (h : (ny, nx) ∈ neighPairs H W y x) : ny < H ∧ nx < W := by
  simp only [neighPairs, List.mem_flatMap] at h
  obtain ⟨ny', hny, h2⟩ := h
  simp only [List.mem_filterMap] at h2
  obtain ⟨nx', hnx, h3⟩ := h2
  by_cases hc : nx' = x ∧ ny' = y
  · rw [if_pos hc] at h3; cases h3
  · rw [if_neg hc] at h3
    obtain ⟨h4, h5⟩ := Prod.mk.inj (Option.some.inj h3)
    subst h4; subst h5
    rw [List.mem_range'_1] at hny hnx
    omega

theorem collectTiles_total {grid : List (List Tile)} {r0 : List Tile}
    {rest : List (List Tile)} (hg : grid = r0 :: rest)
    (hrect : RectGrid grid) :
    ∀ pairs : List (Nat × Nat),
      (∀ p ∈ pairs, p.1 < grid.length ∧ p.2 < r0.length) →
      ∃ ts, collectTiles grid pairs = .ok ts := by
  intro pairs
  induction pairs with
  | nil => exact fun _ => ⟨[], rfl⟩
  | cons hd r ih =>
      intro hb
      rcases hd with ⟨ny, nx⟩
      obtain ⟨hy, hx⟩ := hb _ (List.mem_cons_self _ _)
      obtain ⟨t, ht⟩ := gridAt_total hg hrect hy hx
      obtain ⟨ts, hts⟩ := ih (fun p hp => hb p (List.mem_cons_of_mem _ hp))
      exact ⟨t :: ts, by simp [collectTiles, ht, hts]⟩

theorem neighborsE_total {grid : List (List Tile)} {r0 : List Tile}
    {rest : List (List Tile)} (hg : grid = r0 :: rest)
    (hrect : RectGrid grid) (t : Tile) :
    ∃ nbs, neighborsE grid grid.length r0.length t = .ok nbs := by
  simp only [neighborsE]
  apply collectTiles_total hg hrect
  intro p hp
  rcases p with ⟨ny, nx⟩
  exact neighPairs_bounds hp

theorem alookupP_aupsertP {α : Type} :
    ∀ (l : List ((Nat × Nat) × α)) (k k' : Nat × Nat) (v : α),
      alookupP (aupsertP l k v) k' =
        if k = k' then some v else alookupP l k' := by
  intro l
  induction l with
  | nil =>
      intro k k' v
      by_cases hk : k = k' <;> simp [aupsertP, alookupP, hk]
  | cons hd tl ih =>
      rcases hd with ⟨k0, v0⟩
      intro k k' v
      by_cases h0 : k0 = k
      · subst h0
        by_cases hk : k0 = k' <;> simp [aupsertP, alookupP, hk]
      · by_cases h1 : k0 = k'
        · subst h1
          have hkk : ¬ k = k0 := fun he => h0 he.symm
          simp [aupsertP, alookupP, h0, hkk]
        · simp [aupsertP, alookupP, h0, h1, ih]

theorem selMin_mem :
    ∀ (l : List HeapEntry) (b : HeapEntry),
      (selMin b l).1 ∈ b :: l ∧ ∀ f ∈ (selMin b l).2, f ∈ b :: l := by
  intro l
  induction l with
  | nil => intro b; simp [selMin]
  | cons e r ih =>
      intro b
      simp only [selMin]
      by_cases h : entryLt e b = true
      · rw [if_pos h]
        obtain ⟨ih1, ih2⟩ := ih e
        rw [show selMin e r = ((selMin e r).1, (selMin e r).2) from rfl]
        simp only
        constructor
        · exact List.mem_cons_of_mem _ ih1
        · intro f hf
          rcases List.mem_cons.1 hf with rfl | h1
          · exact List.mem_cons_self _ _
          · exact List.mem_cons_of_mem _ (ih2 f h1)
      · rw [if_neg h]
        obtain ⟨ih1, ih2⟩ := ih b
        rw [show selMin b r = ((selMin b r).1, (selMin b r).2) from rfl]
        simp only
        constructor
        · rcases List.mem_cons.1 ih1 with h1 | h1
          · rw [h1]; exact List.mem_cons_self _ _
          · exact List.mem_cons_of_mem _ (List.mem_cons_of_mem _ h1)
        · intro f hf
          rcases List.mem_cons.1 hf with rfl | h1
          · exact List.mem_cons_of_mem _ (List.mem_cons_self _ _)
          · rcases List.mem_cons.1 (ih2 f h1) with h2 | h2
            · rw [h2]; exact List.mem_cons_self _ _
            · exact List.mem_cons_of_mem _ (List.mem_cons_of_mem _ h2)

theorem heapPop_mem {h : List HeapEntry} {e : HeapEntry}
    {rest : List HeapEntry} (hp : heapPop h = some (e, rest)) :
    e ∈ h ∧ ∀ f ∈ rest, f ∈ h := by
  cases h with
  | nil => cases hp
  | cons b l =>
      simp only [heapPop, Option.some.injEq] at hp
      obtain ⟨h1, h2⟩ := selMin_mem l b
      rw [show selMin b l = ((selMin b l).1, (selMin b l).2) from rfl] at hp
      obtain ⟨he, hr⟩ := Prod.mk.inj hp
      exact ⟨he ▸ h1, fun f hf => h2 f (by rw [hr]; exact hf)⟩

theorem relaxAll_ok (goal : Tile) :
    ∀ (nbs : List Tile) (cur : Tile) (st : AState),
      (∃ g, alookupP st.gscore (cur.x, cur.y) = some g) →
      ∃ st2, relaxAll goal nbs cur st = .ok st2 ∧
        (∀ k, (∃ g, alookupP st.gscore k = some g) →
          ∃ g, alookupP st2.gscore k = some g) ∧
        (HeapInv st → HeapInv st2) := by
  intro nbs
  induction nbs with
  | nil =>
      intro cur st _
      exact ⟨st, rfl, fun _ h => h, id⟩
  | cons nb r ih =>
      intro cur st hcur
      obtain ⟨gCur, hg⟩ := hcur
      cases hkeep : (match alookupP st.gscore (nb.x, nb.y) with
        | none => true
        | some old => decide (gCur + tile_cost nb < old)) with
      | false =>
          obtain ⟨st2, h1, h2, h3⟩ := ih cur st ⟨gCur, hg⟩
          refine ⟨st2, ?_, h2, h3⟩
          simp only [relaxAll, hg, hkeep, Bool.false_eq_true, if_false]
          exact h1
      | true =>
          have hcur2 : ∃ g,
              alookupP (aupsertP st.gscore (nb.x, nb.y)
                (gCur + tile_cost nb)) (cur.x, cur.y) = some g := by
            rw [alookupP_aupsertP]
            by_cases hk : (nb.x, nb.y) = (cur.x, cur.y)
            · rw [if_pos hk]; exact ⟨_, rfl⟩
            · rw [if_neg hk]; exact ⟨gCur, hg⟩
          obtain ⟨st2, h1, h2, h3⟩ := ih cur
            { heap := st.heap ++ [((gCur + tile_cost nb,
                ((nb.x : ℚ) - goal.x)^2 + ((nb.y : ℚ) - goal.y)^2),
                st.ctr, nb)]
              came := aupsertP st.came (nb.x, nb.y) cur
              gscore := aupsertP st.gscore (nb.x, nb.y)
                (gCur + tile_cost nb)
              ctr := st.ctr + 1 } hcur2
          refine ⟨st2, ?_, ?_, ?_⟩
          · simp only [relaxAll, hg, hkeep, if_true]
            exact h1
          · intro k hk2
            apply h2
            simp only
            rw [alookupP_aupsertP]
            by_cases hk : (nb.x, nb.y) = k
            · rw [if_pos hk]; exact ⟨_, rfl⟩
            · rw [if_neg hk]; exact hk2
          · intro hinv
            apply h3
            intro e he
            simp only [List.mem_append, List.mem_singleton] at he
            rcases he with he | he
            · obtain ⟨g0, hg0⟩ := hinv e he
              simp only
              rw [alookupP_aupsertP]
              by_cases hk : (nb.x, nb.y) = (e.2.2.x, e.2.2.y)
              · rw [if_pos hk]; exact ⟨_, rfl⟩
              · rw [if_neg hk]; exact ⟨g0, hg0⟩
            · subst he
              simp only
              rw [alookupP_aupsertP, if_pos rfl]
              exact ⟨_, rfl⟩

theorem loopA_no_raise {grid : List (List Tile)} {r0 : List Tile}
    {rest0 : List (List Tile)} (hgrid : grid = r0 :: rest0)
    (hrect : RectGrid grid) (goal : Tile) (maxLen : Nat) :
    ∀ (fuel : Nat) (st : AState) (r : Except PyErr (Option (List Tile))),
      HeapInv st →
      loopA grid grid.length r0.length goal maxLen fuel st = some r →
      r = .ok none ∨ ∃ p, r = .ok (some p) := by
  intro fuel
  induction fuel with
  | zero =>
      intro st r _ h
      simp only [loopA] at h
      exact absurd h (by simp)
  | succ n ih =>
      intro st r hinv h
      by_cases hlen : st.came.length < maxLen
      · cases hp : heapPop st.heap with
        | none =>
            simp only [loopA, if_pos hlen, hp, Option.some.injEq] at h
            exact .inl h.symm
        | some pr =>
            rcases pr with ⟨e, restH⟩
            by_cases hgoal : e.2.2.x = goal.x ∧ e.2.2.y = goal.y
            · cases hrec : reconstruct st.came (st.came.length + 1)
                  e.2.2 [e.2.2] with
              | none =>
                  simp only [loopA, if_pos hlen, hp, if_pos hgoal,
                    hrec] at h
                  exact absurd h (by simp)
              | some p =>
                  simp only [loopA, if_pos hlen, hp, if_pos hgoal, hrec,
                    Option.some.injEq] at h
                  exact .inr ⟨p, h.symm⟩
            · obtain ⟨nbs, hnbs⟩ := neighborsE_total hgrid hrect e.2.2
              obtain ⟨hmem, hrest⟩ := heapPop_mem hp
              obtain ⟨gCur, hgc⟩ := hinv e hmem
              obtain ⟨st2, h1, _h2, h3⟩ := relaxAll_ok goal nbs e.2.2
                { st with heap := restH } ⟨gCur, hgc⟩
              simp only [loopA, if_pos hlen, hp, if_neg hgoal, hnbs,
                h1] at h
              exact ih st2 r (h3 (fun f hf => hinv f (hrest f hf))) h
      · simp only [loopA, if_neg hlen, Option.some.injEq] at h
        exact .inl h.symm

/-- C8.  `FindRoute` on a world grid (a non-empty rectangular tile array)
either returns a path or returns `None`; it never raises, in particular
it returns `None` when the frontier-pop budget `max_len` is exhausted.
(`some r` states that the run terminates; `hrect`/`hne` state grid
well-formedness, without which Python's `len(world[0])` itself raises.) -/
theorem findRoute_no_raise (grid : List (List Tile)) (start goal : Tile)
    (fuel maxLen : Nat) (r : Except PyErr (Option (List Tile)))
    (hrect : RectGrid grid) (hne : grid ≠ [])
    (hr : findRoute grid start goal fuel maxLen = some r) :
    r = .ok none ∨ ∃ p, r = .ok (some p) := by
  cases grid with
  | nil => exact absurd rfl hne
  | cons r0 rest0 =>
      simp only [findRoute] at hr
      refine loopA_no_raise rfl hrect goal maxLen fuel _ r ?_ hr
      intro e he
      simp only [List.mem_singleton] at he
      subst he
      exact ⟨0, by simp [alookupP]⟩

/-- Witness for C8 on the concrete two-settlement grid. -/
theorem findRoute_no_raise_witness :
    (Except.ok (some [tileA, tileB]) :
      Except PyErr (Option (List Tile))) = .ok none ∨
      ∃ p, (Except.ok (some [tileA, tileB]) :
        Except PyErr (Option (List Tile))) = .ok (some p) :=
  findRoute_no_raise [[tileA, tileB]] tileA tileB 5 2000 _
    (by
      intro row hrow
      simp only [List.mem_singleton] at hrow
      subst hrow
      rfl)
    (by simp) findRoute_wPair

/-! ## C2: backbone connectivity -/

theorem iterP_add (p : Nat → Nat) :
    ∀ (m n x : Nat), iterP p (m + n) x = iterP p n (iterP p m x) := by
  intro m
  induction m with
  | zero => intro n x; rw [Nat.zero_add]; rfl
  | succ m ih =>
      intro n x
      have h1 : m + 1 + n = (m + n) + 1 := by omega
      rw [h1]
      show iterP p (m + n) (p x) = iterP p n (iterP p (m + 1) x)
      rw [ih]
      rfl

theorem reaches_trans {p : Nat → Nat} {x y z : Nat} (h1 : reaches p x y)
    (h2 : reaches p y z) : reaches p x z := by
  obtain ⟨m1, e1⟩ := h1
  obtain ⟨m2, e2⟩ := h2
  exact ⟨m1 + m2, by rw [iterP_add, e1, e2]⟩

theorem reaches_of_iter {p q : Nat → Nat}
    (hstep : ∀ z, reaches p z (q z)) :
    ∀ (m x : Nat), reaches p x (iterP q m x) := by
  intro m
  induction m with
  | zero => intro x; exact ⟨0, rfl⟩
  | succ m ih => intro x; exact reaches_trans (hstep x) (ih (q x))

theorem reaches_mono {p q : Nat → Nat} (hstep : ∀ z, reaches p z (q z))
    {u v : Nat} (h : reaches q u v) : reaches p u v := by
  obtain ⟨m, hm⟩ := h
  exact hm ▸ reaches_of_iter hstep m u

theorem reaches_halve (p : Nat → Nat) (x : Nat) :
    ∀ z, reaches p z (if z = x then p (p x) else p z) := by
  intro z
  by_cases hz : z = x
  · subst hz; rw [if_pos rfl]; exact ⟨2, rfl⟩
  · rw [if_neg hz]; exact ⟨1, rfl⟩

theorem findFuel_transfer :
    ∀ (n : Nat) (p : Nat → Nat) (x u v : Nat),
      reaches (findFuel n p x).1 u v → reaches p u v := by
  intro n
  induction n with
  | zero => intro p x u v h; exact h
  | succ n ih =>
      intro p x u v h
      by_cases hpx : p x = x
      · simp only [findFuel, if_pos hpx] at h
        exact h
      · simp only [findFuel, if_neg hpx] at h
        exact reaches_mono (reaches_halve p x) (ih _ _ u v h)

theorem findFuel_root :
    ∀ (n : Nat) (p : Nat → Nat) (x : Nat),
      reaches p x (findFuel n p x).2 := by
  intro n
  induction n with
  | zero => intro p x; exact ⟨0, rfl⟩
  | succ n ih =>
      intro p x
      by_cases hpx : p x = x
      · simp only [findFuel, if_pos hpx]
        exact ⟨0, rfl⟩
      · simp only [findFuel, if_neg hpx]
        exact reaches_trans ⟨2, rfl⟩
          (reaches_mono (reaches_halve p x) (ih _ _))

theorem iterP_id : ∀ (m x : Nat), iterP (fun z => z) m x = x := by
  intro m
  induction m with
  | zero => intro x; rfl
  | succ m ih => intro x; exact ih x

theorem unionFuel_false {n : Nat} {p p2 : Nat → Nat} {a b : Nat}
    (h : unionFuel n p a b = (p2, false)) :
    (∃ r, reaches p a r ∧ reaches p b r) ∧
      ∀ u v, reaches p2 u v → reaches p u v := by
  rcases hfa : findFuel n p a with ⟨p1, ra⟩
  simp only [unionFuel, hfa] at h
  rcases hfb : findFuel n p1 b with ⟨p2x, rb⟩
  rw [hfb] at h
  simp only at h
  have hroot_a : reaches p a ra := by
    have hr := findFuel_root n p a
    rw [hfa] at hr
    exact hr
  have hroot_b : reaches p b rb := by
    have hr := findFuel_root n p1 b
    rw [hfb] at hr
    have h2 : reaches (findFuel n p a).1 b rb := by rw [hfa]; exact hr
    exact findFuel_transfer n p a b rb h2
  have htrans2 : ∀ u v, reaches p2x u v → reaches p u v := by
    intro u v huv
    have h2 : reaches (findFuel n p1 b).1 u v := by rw [hfb]; exact huv
    have h3 := findFuel_transfer n p1 b u v h2
    have h4 : reaches (findFuel n p a).1 u v := by rw [hfa]; exact h3
    exact findFuel_transfer n p a u v h4
  by_cases hr : ra = rb
  · rw [if_pos hr] at h
    obtain ⟨hp, _⟩ := Prod.mk.inj h
    subst hp
    exact ⟨⟨ra, hroot_a, by rw [hr]; exact hroot_b⟩, htrans2⟩
  · rw [if_neg hr] at h
    exact absurd (Prod.mk.inj h).2 (by simp)

theorem unionFuel_true {n : Nat} {p p3 : Nat → Nat} {a b : Nat}
    (h : unionFuel n p a b = (p3, true)) :
    ∃ ra rb p2, reaches p a ra ∧ reaches p b rb ∧
      (∀ u v, reaches p2 u v → reaches p u v) ∧
      p3 = fun z => if z = rb then ra else p2 z := by
  rcases hfa : findFuel n p a with ⟨p1, ra⟩
  simp only [unionFuel, hfa] at h
  rcases hfb : findFuel n p1 b with ⟨p2x, rb⟩
  rw [hfb] at h
  simp only at h
  have hroot_a : reaches p a ra := by
    have hr := findFuel_root n p a
    rw [hfa] at hr
    exact hr
  have hroot_b : reaches p b rb := by
    have hr := findFuel_root n p1 b
    rw [hfb] at hr
    have h2 : reaches (findFuel n p a).1 b rb := by rw [hfa]; exact hr
    exact findFuel_transfer n p a b rb h2
  have htrans2 : ∀ u v, reaches p2x u v → reaches p u v := by
    intro u v huv
    have h2 : reaches (findFuel n p1 b).1 u v := by rw [hfb]; exact huv
    have h3 := findFuel_transfer n p1 b u v h2
    have h4 : reaches (findFuel n p a).1 u v := by rw [hfa]; exact h3
    exact findFuel_transfer n p a u v h4
  by_cases hr : ra = rb
  · rw [if_pos hr] at h
    exact absurd (Prod.mk.inj h).2 (by simp)
  · rw [if_neg hr] at h
    obtain ⟨hp, _⟩ := Prod.mk.inj h
    exact ⟨ra, rb, p2x, hroot_a, hroot_b, htrans2, hp.symm⟩

theorem linkedU_symm {d : LinkDict Link} {a b : Nat} (h : linkedU d a b) :
    linkedU d b a := h.symm

theorem connectedU_symm {d : LinkDict Link} {a b : Nat}
    (h : connectedU d a b) : connectedU d b a := by
  induction h with
  | refl => exact Relation.ReflTransGen.refl
  | tail _ hstep ih =>
      exact Relation.ReflTransGen.trans
        (Relation.ReflTransGen.single (linkedU_symm hstep)) ih

theorem connectedU_mono {d d2 : LinkDict Link}
    (hsub : ∀ k l, l ∈ d.get k → l ∈ d2.get k) {a b : Nat}
    (h : connectedU d a b) : connectedU d2 a b := by
  refine Relation.ReflTransGen.mono ?_ h
  intro x y hxy
  rcases hxy with ⟨l, hl, hp⟩ | ⟨l, hl, hp⟩
  · exact .inl ⟨l, hsub _ _ hl, hp⟩
  · exact .inr ⟨l, hsub _ _ hl, hp⟩

theorem connectedU_of_iter {d : LinkDict Link} {q : Nat → Nat}
    (hstep : ∀ z, connectedU d z (q z)) :
    ∀ (m x : Nat), connectedU d x (iterP q m x) := by
  intro m
  induction m with
  | zero => intro x; exact Relation.ReflTransGen.refl
  | succ m ih =>
      intro x
      exact Relation.ReflTransGen.trans (hstep x) (ih (q x))

theorem connectedU_reaches {d : LinkDict Link} {q : Nat → Nat}
    (hstep : ∀ z, connectedU d z (q z)) {u v : Nat}
    (h : reaches q u v) : connectedU d u v := by
  obtain ⟨m, hm⟩ := h
  exact hm ▸ connectedU_of_iter hstep m u

theorem kruskalAux_mem (profiles : List (Nat × Profile)) (n : Nat) :
    ∀ (edges : List EdgeT) (p : Nat → Nat) (links : LinkDict Link)
      (pOut : Nat → Nat) (out : LinkDict Link),
      kruskalAux profiles n edges p links = .ok (pOut, out) →
      ∀ k l, l ∈ links.get k → l ∈ out.get k := by
  intro edges
  induction edges with
  | nil =>
      intro p links pOut out h
      simp only [kruskalAux, Except.ok.injEq, Prod.mk.injEq] at h
      exact fun k l hl => h.2 ▸ hl
  | cons hd tl ih =>
      intro p links pOut out h
      rcases hd with ⟨c, sa, sb, pth⟩
      rcases hu : unionFuel n p sa sb with ⟨p2, merged⟩
      simp only [kruskalAux, hu] at h
      cases merged with
      | false =>
          simp only [Bool.false_eq_true, if_false] at h
          exact ih p2 links pOut out h
      | true =>
          simp only [if_true] at h
          cases hpa : alookupN profiles sa with
          | none => rw [hpa] at h; cases hpb : alookupN profiles sb <;>
              rw [hpb] at h <;> cases h
          | some pa =>
              rw [hpa] at h
              cases hpb : alookupN profiles sb with
              | none => rw [hpb] at h; cases h
              | some pb =>
                  rw [hpb] at h
                  intro k l hl
                  refine ih p2 _ pOut out h k l ?_
                  rcases LinkDict.get_append_suffix links sa k
                    ⟨sb, computeTradeValue pa pb, evaluateRouteRisk pth,
                      pth⟩ with ⟨s1, h1⟩
                  rcases LinkDict.get_append_suffix
                    (links.append sa
                      ⟨sb, computeTradeValue pa pb, evaluateRouteRisk pth,
                        pth⟩) sb k
                    ⟨sa, computeTradeValue pa pb, evaluateRouteRisk pth,
                      pth⟩ with ⟨s2, h2⟩
                  rw [h2, h1]
                  exact List.mem_append_left _ (List.mem_append_left _ hl)

theorem kruskalAux_connects (profiles : List (Nat × Profile)) (n : Nat) :
    ∀ (edges : List EdgeT) (p : Nat → Nat) (links : LinkDict Link)
      (pOut : Nat → Nat) (out : LinkDict Link),
      (∀ e ∈ edges, e.2.1 ≠ e.2.2.1) →
      (∀ u v, reaches p u v → connectedU links u v) →
      kruskalAux profiles n edges p links = .ok (pOut, out) →
      ∀ e ∈ edges, connectedU out e.2.1 e.2.2.1 := by
  intro edges
  induction edges with
  | nil => intro p links pOut out _ _ _ e he; cases he
  | cons hd tl ih =>
      intro p links pOut out hne hinv h
      rcases hd with ⟨c, sa, sb, pth⟩
      have hsasb : sa ≠ sb := hne _ (List.mem_cons_self _ _)
      rcases hu : unionFuel n p sa sb with ⟨p2, merged⟩
      simp only [kruskalAux, hu] at h
      cases merged with
      | false =>
          simp only [Bool.false_eq_true, if_false] at h
          obtain ⟨⟨r, hra, hrb⟩, htrans⟩ := unionFuel_false hu
          have hinv2 : ∀ u v, reaches p2 u v → connectedU links u v :=
            fun u v huv => hinv u v (htrans u v huv)
          have hconn : connectedU links sa sb :=
            Relation.ReflTransGen.trans (hinv _ _ hra)
              (connectedU_symm (hinv _ _ hrb))
          intro e he
          rcases List.mem_cons.1 he with rfl | he'
          · exact connectedU_mono
              (kruskalAux_mem profiles n tl p2 links pOut out h) hconn
          · exact ih p2 links pOut out
              (fun e2 he2 => hne e2 (List.mem_cons_of_mem _ he2)) hinv2 h
              e he'
      | true =>
          simp only [if_true] at h
          cases hpa : alookupN profiles sa with
          | none => rw [hpa] at h; cases hpb : alookupN profiles sb <;>
              rw [hpb] at h <;> cases h
          | some pa =>
              rw [hpa] at h
              cases hpb : alookupN profiles sb with
              | none => rw [hpb] at h; cases h
              | some pb =>
                  rw [hpb] at h
                  obtain ⟨ra, rb, p2x, hra, hrb, htrans, hp3⟩ :=
                    unionFuel_true hu
                  set lab : Link :=
                    ⟨sb, computeTradeValue pa pb, evaluateRouteRisk pth,
                      pth⟩ with hlab
                  set lba : Link :=
                    ⟨sa, computeTradeValue pa pb, evaluateRouteRisk pth,
                      pth⟩ with hlba
                  set d2 := (links.append sa lab).append sb lba with hd2
                  have hsub : ∀ k l, l ∈ links.get k → l ∈ d2.get k := by
                    intro k l hl
                    rcases LinkDict.get_append_suffix links sa k lab with
                      ⟨s1, h1⟩
                    rcases LinkDict.get_append_suffix
                      (links.append sa lab) sb k lba with ⟨s2, h2⟩
                    rw [hd2, h2, h1]
                    exact List.mem_append_left _
                      (List.mem_append_left _ hl)
                  have hdirect : linkedU d2 sa sb := by
                    left
                    refine ⟨lab, ?_, by rw [hlab]⟩
                    rw [hd2, LinkDict.get_append_ne _ _ _ _ hsasb,
                      LinkDict.get_append_self]
                    exact List.mem_append_right _
                      (List.mem_singleton.2 rfl)
                  have c1 : connectedU d2 sb rb :=
                    connectedU_mono hsub (hinv sb rb hrb)
                  have c2 : connectedU d2 sa ra :=
                    connectedU_mono hsub (hinv sa ra hra)
                  have cd : connectedU d2 sa sb :=
                    Relation.ReflTransGen.single hdirect
                  have hstep : ∀ z, connectedU d2 z
                      (if z = rb then ra else p2x z) := by
                    intro z
                    by_cases hz : z = rb
                    · rw [if_pos hz, hz]
                      exact Relation.ReflTransGen.trans
                        (connectedU_symm c1)
                        (Relation.ReflTransGen.trans
                          (connectedU_symm cd) c2)
                    · rw [if_neg hz]
                      exact connectedU_mono hsub
                        (hinv _ _ (htrans _ _ ⟨1, rfl⟩))
                  have hinv2 : ∀ u v, reaches p2 u v → connectedU d2 u v := by
                    intro u v huv
                    rw [hp3] at huv
                    exact connectedU_reaches hstep huv
                  intro e he
                  rcases List.mem_cons.1 he with rfl | he'
                  · exact connectedU_mono
                      (kruskalAux_mem profiles n tl p2 d2 pOut out h) cd
                  · exact ih p2 d2 pOut out
                      (fun e2 he2 => hne e2 (List.mem_cons_of_mem _ he2))
                      hinv2 h e he'

theorem alookupP_mem {α : Type} {l : List ((Nat × Nat) × α)}
    {k : Nat × Nat} {v : α} (h : alookupP l k = some v) : (k, v) ∈ l := by
  induction l with
  | nil => exact absurd h (by simp [alookupP])
  | cons hd tl ih =>
      rcases hd with ⟨k', v'⟩
      by_cases hk : k' = k
      · rw [show alookupP ((k', v') :: tl) k = some v' from if_pos hk] at h
        obtain rfl := Option.some.inj h
        subst hk
        exact List.mem_cons_self _ _
      · rw [show alookupP ((k', v') :: tl) k = alookupP tl k from
          if_neg hk] at h
        exact List.mem_cons_of_mem _ (ih h)

theorem reconstruct_ne_nil :
    ∀ (f : Nat) (came : List ((Nat × Nat) × Tile)) (cur : Tile)
      (acc r : List Tile), acc ≠ [] →
      reconstruct came f cur acc = some r → r ≠ [] := by
  intro f
  induction f with
  | zero =>
      intro came cur acc r _ h
      simp only [reconstruct] at h
      exact absurd h (by simp)
  | succ f ihf =>
      intro came cur acc r hacc h
      cases hl : alookupP came (cur.x, cur.y) with
      | none =>
          simp only [reconstruct, hl, Option.some.injEq] at h
          subst h
          simpa using hacc
      | some prev =>
          simp only [reconstruct, hl] at h
          exact ihf came prev (acc ++ [prev]) r (by simp) h

theorem loopA_path_ne_nil (grid : List (List Tile)) (H W : Nat)
    (goal : Tile) (maxLen : Nat) :
    ∀ (fuel : Nat) (st : AState) (p : List Tile),
      loopA grid H W goal maxLen fuel st = some (.ok (some p)) →
      p ≠ [] := by
  intro fuel
  induction fuel with
  | zero =>
      intro st p h
      simp only [loopA] at h
      exact absurd h (by simp)
  | succ n ih =>
      intro st p h
      by_cases hlen : st.came.length < maxLen
      · cases hp : heapPop st.heap with
        | none =>
            simp only [loopA, if_pos hlen, hp] at h
            exact absurd h (by simp)
        | some pr =>
            rcases pr with ⟨e, restH⟩
            by_cases hgoal : e.2.2.x = goal.x ∧ e.2.2.y = goal.y
            · cases hrec : reconstruct st.came (st.came.length + 1)
                  e.2.2 [e.2.2] with
              | none =>
                  simp only [loopA, if_pos hlen, hp, if_pos hgoal,
                    hrec] at h
                  exact absurd h (by simp)
              | some q =>
                  simp only [loopA, if_pos hlen, hp, if_pos hgoal, hrec,
                    Option.some.injEq, Except.ok.injEq] at h
                  rw [← h]
                  exact reconstruct_ne_nil _ st.came e.2.2 [e.2.2] q
                    (by simp) hrec
            · cases hnb : neighborsE grid H W e.2.2 with
              | error er =>
                  simp only [loopA, if_pos hlen, hp, if_neg hgoal,
                    hnb] at h
                  exact absurd h (by simp)
              | ok nbs =>
                  cases hrx : relaxAll goal nbs e.2.2
                      { st with heap := restH } with
                  | error er =>
                      simp only [loopA, if_pos hlen, hp, if_neg hgoal,
                        hnb, hrx] at h
                      exact absurd h (by simp)
                  | ok st2 =>
                      simp only [loopA, if_pos hlen, hp, if_neg hgoal,
                        hnb, hrx] at h
                      exact ih st2 p h
      · simp only [loopA, if_neg hlen] at h
        exact absurd h (by simp)

theorem findRoute_path_nonempty {grid : List (List Tile)} {s g : Tile}
    {fuel maxLen : Nat} {p : List Tile}
    (h : findRoute grid s g fuel maxLen = some (.ok (some p))) :
    p ≠ [] := by
  cases grid with
  | nil => simp only [findRoute] at h; exact absurd h (by simp)
  | cons r0 rest =>
      simp only [findRoute] at h
      exact loopA_path_ne_nil _ _ _ g maxLen fuel _ p h

theorem distAux_covers (grid : List (List Tile)) (fuel : Nat) :
    ∀ (pairs : List ((Nat × Profile) × (Nat × Profile)))
      (acc dist : List ((Nat × Nat) × (List Tile × ℚ))),
      distAux grid fuel pairs acc = some (.ok dist) →
      (∀ pr ∈ pairs, ∃ path, findRoute grid pr.1.2.tile pr.2.2.tile fuel =
        some (.ok (some path))) →
      (∀ k, (∃ v, alookupP acc k = some v) →
        ∃ v, alookupP dist k = some v) ∧
      (∀ pr ∈ pairs, (∃ v, alookupP dist (pr.1.1, pr.2.1) = some v) ∧
        (∃ v, alookupP dist (pr.2.1, pr.1.1) = some v)) := by
  intro pairs
  induction pairs with
  | nil =>
      intro acc dist h _
      simp only [distAux, Option.some.injEq, Except.ok.injEq] at h
      subst h
      exact ⟨fun _ hk => hk, fun pr hpr => absurd hpr (List.not_mem_nil _)⟩
  | cons hd tl ih =>
      intro acc dist h hroutes
      rcases hd with ⟨⟨sa, pa⟩, ⟨sb, pb⟩⟩
      obtain ⟨path, hpath⟩ := hroutes _ (List.mem_cons_self _ _)
      have hnn : path ≠ [] := findRoute_path_nonempty hpath
      have hemp : path.isEmpty = false := by
        cases path with
        | nil => exact absurd rfl hnn
        | cons a r => rfl
      simp only [distAux, hpath, hemp, Bool.false_eq_true, if_false] at h
      obtain ⟨hmono, hcov⟩ := ih _ dist h
        (fun pr hpr => hroutes pr (List.mem_cons_of_mem _ hpr))
      constructor
      · intro k hk
        apply hmono
        rw [alookupP_aupsertP]
        by_cases h1 : ((sb, sa) : Nat × Nat) = k
        · rw [if_pos h1]; exact ⟨_, rfl⟩
        · rw [if_neg h1, alookupP_aupsertP]
          by_cases h2 : ((sa, sb) : Nat × Nat) = k
          · rw [if_pos h2]; exact ⟨_, rfl⟩
          · rw [if_neg h2]; exact hk
      · intro pr hpr
        rcases List.mem_cons.1 hpr with rfl | hpr'
        · constructor
          · apply hmono
            rw [alookupP_aupsertP]
            by_cases h1 : ((sb, sa) : Nat × Nat) = (sa, sb)
            · rw [if_pos h1]; exact ⟨_, rfl⟩
            · rw [if_neg h1, alookupP_aupsertP, if_pos rfl]
              exact ⟨_, rfl⟩
          · apply hmono
            rw [alookupP_aupsertP, if_pos rfl]
            exact ⟨_, rfl⟩
        · exact hcov pr hpr'

theorem edgesOf_mem :
    ∀ (dist : List ((Nat × Nat) × (List Tile × ℚ)))
      (kv : (Nat × Nat) × (List Tile × ℚ)), kv ∈ dist →
      kv.1.1 < kv.1.2 → (kv.2.2, kv.1.1, kv.1.2, kv.2.1) ∈ edgesOf dist := by
  intro dist
  induction dist with
  | nil => intro kv hkv; cases hkv
  | cons hd tl ih =>
      intro kv hkv hlt
      simp only [edgesOf, List.foldr_cons]
      rcases List.mem_cons.1 hkv with rfl | hkv'
      · rw [if_pos hlt]
        exact List.mem_cons_self _ _
      · by_cases hc : hd.1.1 < hd.1.2
        · rw [if_pos hc]
          exact List.mem_cons_of_mem _ (ih kv hkv' hlt)
        · rw [if_neg hc]
          exact ih kv hkv' hlt

theorem mem_insEdge_self (e : EdgeT) : ∀ l, e ∈ insEdge e l := by
  intro l
  induction l with
  | nil => simp [insEdge]
  | cons f r ih =>
      simp only [insEdge]
      by_cases hc : e.1 < f.1
      · rw [if_pos hc]; exact List.mem_cons_self _ _
      · rw [if_neg hc]; exact List.mem_cons_of_mem _ ih

theorem mem_insEdge_of_mem (e x : EdgeT) :
    ∀ l, x ∈ l → x ∈ insEdge e l := by
  intro l
  induction l with
  | nil => intro h; cases h
  | cons f r ih =>
      intro h
      simp only [insEdge]
      by_cases hc : e.1 < f.1
      · rw [if_pos hc]; exact List.mem_cons_of_mem _ h
      · rw [if_neg hc]
        rcases List.mem_cons.1 h with rfl | h'
        · exact List.mem_cons_self _ _
        · exact List.mem_cons_of_mem _ (ih h')

theorem mem_sortEdges_aux :
    ∀ (l acc : List EdgeT) (x : EdgeT), (x ∈ acc ∨ x ∈ l) →
      x ∈ l.foldl (fun acc e => insEdge e acc) acc := by
  intro l
  induction l with
  | nil =>
      intro acc x h
      rcases h with h | h
      · exact h
      · cases h
  | cons hd tl ih =>
      intro acc x h
      simp only [List.foldl_cons]
      apply ih
      rcases h with h | h
      · exact .inl (mem_insEdge_of_mem hd x acc h)
      · rcases List.mem_cons.1 h with rfl | h'
        · exact .inl (mem_insEdge_self x acc)
        · exact .inr h'

theorem mem_sortEdges {l : List EdgeT} {x : EdgeT} (h : x ∈ l) :
    x ∈ sortEdges l :=
  mem_sortEdges_aux l [] x (.inr h)

theorem allPairs_cover {α : Type} :
    ∀ (l : List α) (a b : α), a ∈ l → b ∈ l → a ≠ b →
      (a, b) ∈ allPairs l ∨ (b, a) ∈ allPairs l := by
  intro l
  induction l with
  | nil => intro a b ha _ _; cases ha
  | cons h t ih =>
      intro a b ha hb hne
      rcases List.mem_cons.1 ha with rfl | ha'
      · have hb' : b ∈ t := by
          rcases List.mem_cons.1 hb with rfl | hb'
          · exact absurd rfl hne
          · exact hb'
        left
        simp only [allPairs]
        exact List.mem_append_left _ (List.mem_map.2 ⟨b, hb', rfl⟩)
      · rcases List.mem_cons.1 hb with rfl | hb'
        · right
          simp only [allPairs]
          exact List.mem_append_left _ (List.mem_map.2 ⟨a, ha', rfl⟩)
        · rcases ih a b ha' hb' hne with hc | hc
          · left; simp only [allPairs]; exact List.mem_append_right _ hc
          · right; simp only [allPairs]; exact List.mem_append_right _ hc

/-- C2.  Whenever the route planner returns a path for every enumerated
settlement pair, the Kruskal/union-find backbone of `GenerateTradeRoutes`
(`mst_links`) puts the settlement set into a single connected component:
every settlement is reachable from every other along a chain of backbone
links. -/
theorem backbone_single_component {grid : List (List Tile)} {fuel : Nat}
    {profiles : List (Nat × Profile)} {mst : LinkDict Link}
    (hm : mstOfProfiles grid fuel profiles = some (.ok mst))
    (hroutes : ∀ pr ∈ allPairs profiles, ∃ path,
      findRoute grid pr.1.2.tile pr.2.2.tile fuel = some (.ok (some path)))
    {sa sb : Nat} {pa pb : Profile}
    (ha : (sa, pa) ∈ profiles) (hb : (sb, pb) ∈ profiles)
    (hne : sa ≠ sb) :
    connectedU mst sa sb := by
  unfold mstOfProfiles at hm
  cases hd : distAux grid fuel (allPairs profiles) [] with
  | none => rw [hd] at hm; cases hm
  | some er =>
      rw [hd] at hm
      cases er with
      | error e => cases hm
      | ok dist =>
          simp only at hm
          cases hk : kruskalAux profiles profiles.length
              (sortEdges (edgesOf dist)) (fun x => x) ⟨[]⟩ with
          | error e => rw [hk] at hm; cases hm
          | ok pr =>
              rw [hk] at hm
              rcases pr with ⟨pOut, out⟩
              simp only [Option.some.injEq, Except.ok.injEq] at hm
              subst hm
              obtain ⟨_, hcov⟩ :=
                distAux_covers grid fuel (allPairs profiles) [] dist hd
                  hroutes
              have hpair := allPairs_cover profiles (sa, pa) (sb, pb) ha
                hb (fun he => hne (congrArg Prod.fst he))
              have hinit : ∀ u v, reaches (fun x => x) u v →
                  connectedU (⟨[]⟩ : LinkDict Link) u v := by
                intro u v huv
                obtain ⟨m, hm2⟩ := huv
                rw [iterP_id] at hm2
                exact hm2 ▸ Relation.ReflTransGen.refl
              have hedges : ∀ e ∈ sortEdges (edgesOf dist),
                  e.2.1 ≠ e.2.2.1 :=
                fun e hee =>
                  Nat.ne_of_lt (edgesOf_lt dist e (sortEdges_mem hee))
              rcases Nat.lt_or_ge sa sb with hlt | hge
              · have hkey : ∃ v, alookupP dist (sa, sb) = some v := by
                  rcases hpair with hp | hp
                  · exact (hcov _ hp).1
                  · exact (hcov _ hp).2
                obtain ⟨v, hv⟩ := hkey
                have hmem2 : ((sa, sb), v) ∈ dist := alookupP_mem hv
                have hes : (v.2, sa, sb, v.1) ∈ sortEdges (edgesOf dist) :=
                  mem_sortEdges (edgesOf_mem dist _ hmem2 hlt)
                exact kruskalAux_connects profiles profiles.length
                  (sortEdges (edgesOf dist)) (fun x => x) ⟨[]⟩ pOut out
                  hedges hinit hk _ hes
              · have hlt2 : sb < sa := by omega
                have hkey : ∃ v, alookupP dist (sb, sa) = some v := by
                  rcases hpair with hp | hp
                  · exact (hcov _ hp).2
                  · exact (hcov _ hp).1
                obtain ⟨v, hv⟩ := hkey
                have hmem2 : ((sb, sa), v) ∈ dist := alookupP_mem hv
                have hes : (v.2, sb, sa, v.1) ∈ sortEdges (edgesOf dist) :=
                  mem_sortEdges (edgesOf_mem dist _ hmem2 hlt2)
                exact connectedU_symm
                  (kruskalAux_connects profiles profiles.length
                    (sortEdges (edgesOf dist)) (fun x => x) ⟨[]⟩ pOut out
                    hedges hinit hk _ hes)

/-- Witness for C2 on the concrete two-settlement world. -/
theorem backbone_single_component_witness : connectedU gPair 1 2 :=
  backbone_single_component mst_wPair
    (by
      intro pr hpr
      simp only [allPairs, List.map_cons, List.map_nil,
        List.append_nil, List.nil_append, List.mem_cons,
        List.not_mem_nil, or_false, List.cons_append] at hpr
      subst hpr
      exact ⟨[tileA, tileB], findRoute_wPair⟩)
    (show ((1 : Nat), profA) ∈ [(1, profA), (2, profB)] by simp)
    (show ((2 : Nat), profB) ∈ [(1, profA), (2, profB)] by simp)
    (by decide)

end TradeSpec
